import Mathlib

/-!
Verification of the tome scrape-and-cache subsystem.

This file shallowly embeds the data model and the cache / scraping
orchestration logic of the repository (`src/config.ts` cache layer,
`src/services/scraper.ts` domain service, and the background-jobs module
reproduced in `EPUB_IMPLEMENTATION_PLAN.md`) as executable Lean
definitions, and proves the behavioural claims about them.

Modelling conventions:
* The SQLite `cache` table (`url TEXT PRIMARY KEY, content TEXT,
  expires_at INTEGER`) is a list of rows with unique keys; the SQL
  upsert (`ON CONFLICT(url) DO UPDATE`) replaces the row with the
  matching primary key.
* Timestamps are epoch seconds as `Nat` (the code uses
  `Math.floor(Date.now() / 1000)`).
* Stateful functions take the store and the current time explicitly and
  return the new store.
-/

namespace Tome

/-- A row of the text cache table
(`CREATE TABLE cache (url TEXT PRIMARY KEY, content TEXT NOT NULL, expires_at INTEGER NOT NULL)`). -/
structure CacheRow where
  url : String
  content : String
  expiresAt : Nat
deriving Repr, DecidableEq

/-- A row of the image cache table
(`CREATE TABLE image_cache (url TEXT PRIMARY KEY, data BLOB, content_type TEXT, expires_at INTEGER)`);
the binary payload is modelled as an opaque string. -/
structure ImageRow where
  url : String
  data : String
  contentType : String
  expiresAt : Nat
deriving Repr, DecidableEq

/-- The persistent store: the text cache table and the image cache table. -/
structure DBState where
  cache : List CacheRow
  imageCache : List ImageRow
deriving Repr, DecidableEq

/-- The primary-key invariant of the `cache` table: no two rows share a url. -/
def KeysNodup (db : List CacheRow) : Prop :=
  (db.map (fun r => r.url)).Nodup

/-- `getCache` (config.ts): `SELECT content FROM cache WHERE url = ? AND expires_at > ?`
with `? = now`; returns the content only when the row is still valid. -/
def getCache (db : List CacheRow) (now : Nat) (url : String) : Option String :=
  (db.find? (fun r => r.url == url && decide (now < r.expiresAt))).map (fun r => r.content)

/-- `isCached` (config.ts): `SELECT 1 FROM cache WHERE url = ? AND expires_at > ?`;
same validity check as `getCache` without returning the payload. -/
def isCached (db : List CacheRow) (now : Nat) (url : String) : Bool :=
  (db.find? (fun r => r.url == url && decide (now < r.expiresAt))).isSome

/-- SQL upsert on a primary-keyed table: update the row with the matching
key in place, otherwise append a fresh row. -/
def upsertRow : List CacheRow → CacheRow → List CacheRow
  | [], row => [row]
  | r :: rest, row => if r.url == row.url then row :: rest else r :: upsertRow rest row

/-- `setCache` (config.ts): `INSERT INTO cache (url, content, expires_at) VALUES (?, ?, ?)
ON CONFLICT(url) DO UPDATE SET content = ?, expires_at = ?` with
`expires_at = now + ttlSeconds`. -/
def setCache (db : List CacheRow) (now : Nat) (url content : String) (ttlSeconds : Nat) : List CacheRow :=
  upsertRow db { url := url, content := content, expiresAt := now + ttlSeconds }

/-- Modelled from the spec: `deleteCache` is imported by `scraper.ts` from the
cache module but its body is not part of the sources; per the spec,
invalidating a cache entry deletes the row for that key, and the scraper
treats the returned value as "was a row deleted". -/
def deleteCache (db : List CacheRow) (url : String) : List CacheRow × Bool :=
  (db.filter (fun r => ¬ r.url == url), db.any (fun r => r.url == url))

/-- `clearExpiredCache` (config.ts): `DELETE FROM cache WHERE expires_at <= ?` and
`DELETE FROM image_cache WHERE expires_at <= ?` with `? = now`. -/
def clearExpiredCache (db : DBState) (now : Nat) : DBState :=
  { cache := db.cache.filter (fun r => decide (now < r.expiresAt)),
    imageCache := db.imageCache.filter (fun r => decide (now < r.expiresAt)) }

/-! ### Claim C3: cache TTL correctness -/

theorem getCache_upsert_self (db : List CacheRow) (row : CacheRow) (now' : Nat)
    (hnd : KeysNodup db) :
    getCache (upsertRow db row) now' row.url =
      if now' < row.expiresAt then some row.content else none := by
  induction db with
  | nil =>
    simp only [upsertRow, getCache, List.find?]
    by_cases h : now' < row.expiresAt <;> simp [h]
  | cons r rest ih =>
    have hnd' : KeysNodup rest := by
      simpa [KeysNodup, List.nodup_cons] using hnd.of_cons
    by_cases hurl : r.url = row.url
    · have hne : row.url ∉ rest.map (fun r => r.url) := by
        simp only [KeysNodup, List.map_cons, List.nodup_cons] at hnd
        rw [← hurl]
        exact hnd.1
      simp only [upsertRow, hurl, beq_self_eq_true, if_true]
      by_cases h : now' < row.expiresAt
      · simp [getCache, List.find?, h]
      · have hfindrest :
            rest.find? (fun x => x.url == row.url && decide (now' < x.expiresAt)) = none := by
          refine List.find?_eq_none.mpr (fun x hx => ?_)
          simp only [Bool.and_eq_true, beq_iff_eq, decide_eq_true_eq, not_and]
          intro hxe _
          exact hne (hxe ▸ List.mem_map_of_mem (fun r => r.url) hx)
        simp [getCache, List.find?, h, hfindrest]
    · have : (r.url == row.url) = false := by simp [hurl]
      simp only [upsertRow, this, Bool.false_eq_true, if_false]
      rw [getCache, List.find?]
      have hpred : (r.url == row.url && decide (now' < r.expiresAt)) = false := by
        simp [hurl]
      simp only [hpred, Bool.false_eq_true, if_false]
      exact ih hnd'

theorem mem_url_upsert (db : List CacheRow) (row : CacheRow) :
    (upsertRow db row).any (fun r => r.url == row.url) = true := by
  induction db with
  | nil => simp [upsertRow]
  | cons r rest ih =>
    by_cases hurl : r.url = row.url
    · simp [upsertRow, hurl]
    · have : (r.url == row.url) = false := by simp [hurl]
      simp [upsertRow, this, ih]

/-- C3: after `put(k, v, t)` at time `now`, `get(k)` at any time strictly before
`now + t` returns `v`; at or after that expiry `get(k)` is absent and
`isPresent(k)` is false; and the (possibly expired) row is still stored —
`getCache` and `isCached` are read-only queries, and the row for `k` remains in
the table until an explicit purge. -/
theorem cache_ttl_correct (db : List CacheRow) (now now' ttl : Nat) (k v : String)
    (hnd : KeysNodup db) :
    (now' < now + ttl → getCache (setCache db now k v ttl) now' k = some v) ∧
    (now + ttl ≤ now' →
      getCache (setCache db now k v ttl) now' k = none ∧
      isCached (setCache db now k v ttl) now' k = false) ∧
    (setCache db now k v ttl).any (fun r => r.url == k) = true := by
  have hget := getCache_upsert_self db { url := k, content := v, expiresAt := now + ttl } now' hnd
  refine ⟨fun h => ?_, fun h => ?_, ?_⟩
  · rw [setCache, hget, if_pos h]
  · have hnot : ¬ now' < now + ttl := not_lt.mpr h
    have h1 : getCache (setCache db now k v ttl) now' k = none := by
      rw [setCache, hget, if_neg hnot]
    refine ⟨h1, ?_⟩
    have hiso : isCached (setCache db now k v ttl) now' k =
        (getCache (setCache db now k v ttl) now' k).isSome := by
      simp [isCached, getCache]
    rw [hiso, h1]
    rfl
  · exact mem_url_upsert db { url := k, content := v, expiresAt := now + ttl }

/-- Witness for C3 at a concrete input: a fresh store, key `chapter:1`,
ttl 10 written at time 100; read back at 105 and at 110. -/
theorem cache_ttl_correct_witness :
    getCache (setCache [] 100 "chapter:1" "body" 10) 105 "chapter:1" = some "body" ∧
    getCache (setCache [] 100 "chapter:1" "body" 10) 110 "chapter:1" = none ∧
    isCached (setCache [] 100 "chapter:1" "body" 10) 110 "chapter:1" = false ∧
    (setCache [] 100 "chapter:1" "body" 10).any (fun r => r.url == "chapter:1") = true := by
  have h := cache_ttl_correct [] 100 105 10 "chapter:1" "body" (by simp [KeysNodup])
  have h' := cache_ttl_correct [] 100 110 10 "chapter:1" "body" (by simp [KeysNodup])
  exact ⟨h.1 (by norm_num), (h'.2.1 (by norm_num)).1, (h'.2.1 (by norm_num)).2, h'.2.2⟩

/-! ### Claim C9: type-prefix purge

`clearCacheByType` runs `DELETE FROM cache WHERE url LIKE ?` with the
parameter `${type}:%`. SQLite's default `LIKE` treats `%` (any sequence)
and `_` (any single character) in the pattern as wildcards and compares
ASCII letters case-insensitively. -/

/-- Character comparison used by SQLite's default `LIKE`: ASCII letters are
folded, every other character compares exactly. -/
def likeCharEq (p c : Char) : Bool :=
  p.toUpper == c.toUpper

/-- SQLite `LIKE` pattern matching (default `case_sensitive_like = off`,
no `ESCAPE` clause): `%` matches any sequence, `_` any single character,
other characters match ASCII-case-insensitively. -/
def likeMatch : List Char → List Char → Bool
  | [], t => t.isEmpty
  | p :: ps, t =>
    if p = '%' then t.tails.any (fun s => likeMatch ps s)
    else if p = '_' then
      match t with
      | [] => false
      | _ :: ts => likeMatch ps ts
    else
      match t with
      | [] => false
      | c :: ts => likeCharEq p c && likeMatch ps ts

/-- `clearCacheByType` (config.ts): `DELETE FROM cache WHERE url LIKE ?`
with parameter `${type}:%`; returns `result.changes`, the number of deleted
rows. Only the text cache table is touched. -/
def clearCacheByType (db : DBState) (ty : String) : DBState × Nat :=
  let pat := (ty ++ ":%").toList
  ({ cache := db.cache.filter (fun r => ¬ likeMatch pat r.url.toList),
     imageCache := db.imageCache },
   (db.cache.filter (fun r => likeMatch pat r.url.toList)).length)

/-- ASCII-case-insensitive prefix test: the claim's "key starts with `t:`"
compared with SQLite `LIKE`'s character folding. -/
def caselessIsPrefix : List Char → List Char → Bool
  | [], _ => true
  | _ :: _, [] => false
  | p :: ps, c :: cs => likeCharEq p c && caselessIsPrefix ps cs

theorem likeMatch_cons (p : Char) (ps t : List Char) :
    likeMatch (p :: ps) t =
      if p = '%' then t.tails.any (fun s => likeMatch ps s)
      else if p = '_' then
        (match t with
         | [] => false
         | _ :: ts => likeMatch ps ts)
      else
        (match t with
         | [] => false
         | c :: ts => likeCharEq p c && likeMatch ps ts) := by
  rw [likeMatch.eq_def]

theorem likeMatch_append_percent (pref : List Char) (s : List Char)
    (h : ∀ c ∈ pref, c ≠ '%' ∧ c ≠ '_') :
    likeMatch (pref ++ ['%']) s = caselessIsPrefix pref s := by
  induction pref generalizing s with
  | nil =>
    rw [List.nil_append, likeMatch_cons, if_pos rfl]
    have : caselessIsPrefix [] s = true := rfl
    rw [this]
    refine List.any_eq_true.mpr ?_
    exact ⟨[], (List.mem_tails [] s).mpr List.nil_suffix, by rw [likeMatch]; rfl⟩
  | cons p ps ih =>
    have hp := h p (List.mem_cons_self p ps)
    have hrest : ∀ c ∈ ps, c ≠ '%' ∧ c ≠ '_' := fun c hc => h c (List.mem_cons_of_mem p hc)
    rw [List.cons_append, likeMatch_cons, if_neg hp.1, if_neg hp.2]
    cases s with
    | nil => simp [caselessIsPrefix]
    | cons c cs => simp only [caselessIsPrefix, ih cs hrest]

/-- C9 counterexample: the claim as stated is false, because the `type`
argument is interpolated into a `LIKE` pattern rather than compared as a
literal prefix. Purging type `"_"` deletes the row `a:1`, whose key does
not start with the literal prefix `_:` — the `_` acts as a single-character
wildcard. -/
theorem clearCacheByType_wildcard_counterexample :
    (clearCacheByType ⟨[⟨"a:1", "v", 100⟩], []⟩ "_").1.cache = [] ∧
    "_:".toList.isPrefixOf "a:1".toList = false := by
  constructor
  · rfl
  · decide

/-- C9 (amended): for every type string `t` containing no `LIKE` wildcard
(`%` or `_`), `purgeByTypePrefix(t)` deletes exactly those text-cache rows
whose key starts with `t:` compared ASCII-case-insensitively, and leaves
the image cache table unchanged. -/
theorem clearCacheByType_prefix (db : DBState) (ty : String)
    (h : ∀ c ∈ ty.toList, c ≠ '%' ∧ c ≠ '_') :
    (clearCacheByType db ty).1.cache =
      db.cache.filter (fun r => ¬ caselessIsPrefix (ty.toList ++ [':']) r.url.toList) ∧
    (clearCacheByType db ty).1.imageCache = db.imageCache := by
  have hpref : ∀ c ∈ ty.toList ++ [':'], c ≠ '%' ∧ c ≠ '_' := by
    intro c hc
    rcases List.mem_append.mp hc with hc | hc
    · exact h c hc
    · simp only [List.mem_singleton] at hc
      subst hc
      exact ⟨by decide, by decide⟩
  have hpat : (ty ++ ":%").toList = (ty.toList ++ [':']) ++ ['%'] := by
    have h2 : (ty ++ ":%").data = ty.data ++ [':', '%'] := String.data_append ty ":%"
    simp [String.toList, h2]
  constructor
  · simp only [clearCacheByType, hpat]
    refine List.filter_congr (fun r _ => ?_)
    rw [likeMatch_append_percent (ty.toList ++ [':']) r.url.toList hpref]
  · rfl

/-- Witness for C9 (amended) at the spec's own example: keys `chapter:1`,
`chapter:2`, `fiction:1`; purging `"chapter"` removes exactly the two
chapter rows. -/
theorem clearCacheByType_prefix_witness :
    (clearCacheByType ⟨[⟨"chapter:1", "a", 10⟩, ⟨"chapter:2", "b", 10⟩,
        ⟨"fiction:1", "c", 10⟩], []⟩ "chapter").1.cache =
      ([⟨"chapter:1", "a", 10⟩, ⟨"chapter:2", "b", 10⟩,
        ⟨"fiction:1", "c", 10⟩] : List CacheRow).filter
        (fun r => ¬ caselessIsPrefix ("chapter".toList ++ [':']) r.url.toList) ∧
    (clearCacheByType ⟨[⟨"chapter:1", "a", 10⟩, ⟨"chapter:2", "b", 10⟩,
        ⟨"fiction:1", "c", 10⟩], []⟩ "chapter").1.imageCache = [] :=
  clearCacheByType_prefix
    ⟨[⟨"chapter:1", "a", 10⟩, ⟨"chapter:2", "b", 10⟩, ⟨"fiction:1", "c", 10⟩], []⟩
    "chapter" (by decide)

/-! ### Claim C1: anonymous vs authenticated retrieval for chapters

`getChapter(chapterId, ttl?)` sets `useAnon := (ttl !== undefined)` and calls
`getPage(url, ".chapter-content", useAnon)`. `getPage` first tries
`tryHttpFetch(url, !useAnon)` (the `Cookie` header is attached only when
`includeCookies` is true and the joined cookie string is non-empty), then
falls back to a browser page in the anonymous context when `useAnon`,
in the authenticated (cookie-seeded) context otherwise. -/

/-- A stored cookie row (`cookies` table). -/
structure Cookie where
  name : String
  value : String
deriving Repr, DecidableEq

/-- `hasSessionCookies` (config.ts): the `.AspNetCore.Identity.Application`
cookie is present. -/
def hasSessionCookies (cookies : List Cookie) : Bool :=
  cookies.any (fun c => c.name == ".AspNetCore.Identity.Application")

/-- JavaScript `Array.prototype.join(sep)`. -/
def joinSep (sep : String) : List String → String
  | [] => ""
  | [x] => x
  | x :: xs => x ++ sep ++ joinSep sep xs

/-- `getCookiesForFetch` (scraper.ts): `cookies.map(c => name=value).join("; ")`. -/
def getCookiesForFetch (cookies : List Cookie) : String :=
  joinSep "; " (cookies.map (fun c => c.name ++ "=" ++ c.value))

theorem getCookiesForFetch_ne_empty (c : Cookie) (cs : List Cookie) :
    getCookiesForFetch (c :: cs) ≠ "" := by
  have hpiece : 0 < (c.name ++ "=" ++ c.value).length := by
    simp only [String.length_append]
    have : ("=" : String).length = 1 := rfl
    omega
  have hlen : 0 < (getCookiesForFetch (c :: cs)).length := by
    rw [getCookiesForFetch, List.map_cons]
    cases hm : cs.map (fun c => c.name ++ "=" ++ c.value) with
    | nil => simpa [joinSep] using hpiece
    | cons p ps =>
      have h1 : ("=" : String).length = 1 := rfl
      simp only [joinSep, String.length_append]
      omega
  intro h
  rw [h] at hlen
  simp at hlen

/-- The two long-lived Playwright browser contexts. -/
inductive BrowserCtx
  | auth
  | anon
deriving Repr, DecidableEq

/-- The fast-path HTTP request issued by `tryHttpFetch`: the
`includeCookies` argument and the `Cookie` header actually attached. -/
structure HttpReq where
  includeCookies : Bool
  cookieHeader : Option String
deriving Repr, DecidableEq

/-- A remote page request made by `getPage`: the fast HTTP path or a
browser-automation navigation in one of the two contexts. -/
inductive PageReq
  | http (r : HttpReq)
  | browser (ctx : BrowserCtx)
deriving Repr, DecidableEq

/-- `tryHttpFetch` header construction: the `Cookie` header is set only when
`includeCookies` and the joined cookie string is non-empty (JS truthiness of
the string). -/
def tryHttpFetchReq (cookies : List Cookie) (includeCookies : Bool) : HttpReq :=
  { includeCookies := includeCookies,
    cookieHeader :=
      if includeCookies && !(getCookiesForFetch cookies == "") then
        some (getCookiesForFetch cookies)
      else none }

/-- The sequence of remote requests `getPage(url, sel?, useAnon)` issues, as
a function of the stored cookies and of whether the fast HTTP path succeeds
(`httpOk`, the network oracle). A non-anonymous call without session cookies
throws before any request. The fast path is tried with
`includeCookies = !useAnon`; on failure the browser navigates in the
anonymous context iff `useAnon`. -/
def getPageRequests (cookies : List Cookie) (useAnon httpOk : Bool) :
    Except String (List PageReq) :=
  if !useAnon && !hasSessionCookies cookies then
    .error "Session cookies not configured"
  else
    let httpReq := PageReq.http (tryHttpFetchReq cookies (!useAnon))
    if httpOk then .ok [httpReq]
    else .ok [httpReq, .browser (if useAnon then .anon else .auth)]

/-- Cache key `chapter:{id}`. -/
def chapterCacheKey (chapterId : Nat) : String :=
  "chapter:" ++ toString chapterId

/-- The remote requests a `getChapter(chapterId, ttl?)` call issues:
pre-caching mode (ttl supplied) first consults the cache and issues nothing
on a hit; otherwise the requests of `getPage` with `useAnon = ttl.isSome`. -/
def getChapterRequests (db : List CacheRow) (now chapterId : Nat)
    (ttl : Option Nat) (cookies : List Cookie) (httpOk : Bool) :
    Except String (List PageReq) :=
  let isPreCaching := ttl.isSome
  if isPreCaching && (getCache db now (chapterCacheKey chapterId)).isSome then
    .ok []
  else
    getPageRequests cookies isPreCaching httpOk

/-- A request that carries none of the user's stored cookies: a cookie-less
HTTP fetch or a navigation in the anonymous context. -/
def reqWithoutUserCookies : PageReq → Bool
  | .http q => q.includeCookies == false && q.cookieHeader == none
  | .browser ctx => ctx == .anon

/-- A request that carries the user's stored cookies: an HTTP fetch with the
`Cookie` header set to the stored cookies, or a navigation in the
authenticated context. -/
def reqWithUserCookies (cookies : List Cookie) : PageReq → Bool
  | .http q => q.cookieHeader == some (getCookiesForFetch cookies)
  | .browser ctx => ctx == .auth

/-- C1: a pre-caching `getChapter` call (TTL supplied) never attaches the
stored user cookies to any underlying request (cookie-less HTTP fetch or
anonymous context); a live-read call (TTL omitted) that does not throw
issues at least one request, and every request it issues carries the stored
cookies (HTTP fetch with the `Cookie` header, or the authenticated
context). -/
theorem getChapter_context_isolation (db : List CacheRow) (now chapterId : Nat)
    (cookies : List Cookie) (httpOk : Bool) (ttl : Option Nat) :
    (ttl.isSome = true →
      ∀ reqs, getChapterRequests db now chapterId ttl cookies httpOk = .ok reqs →
        ∀ r ∈ reqs, reqWithoutUserCookies r = true) ∧
    (ttl = none →
      ∀ reqs, getChapterRequests db now chapterId ttl cookies httpOk = .ok reqs →
        reqs ≠ [] ∧ ∀ r ∈ reqs, reqWithUserCookies cookies r = true) := by
  constructor
  · intro hsome reqs hok r hr
    rw [getChapterRequests] at hok
    simp only [hsome, Bool.true_and] at hok
    by_cases hhit : (getCache db now (chapterCacheKey chapterId)).isSome
    · rw [if_pos hhit] at hok
      cases hok
      simp at hr
    · rw [if_neg (by simpa using hhit)] at hok
      rw [getPageRequests] at hok
      simp only [hsome, Bool.not_true, Bool.false_and, Bool.false_eq_true, if_false] at hok
      by_cases hhttp : httpOk
      · rw [if_pos hhttp] at hok
        cases hok
        simp only [List.mem_singleton] at hr
        subst hr
        simp [reqWithoutUserCookies, tryHttpFetchReq, hsome]
      · rw [if_neg hhttp] at hok
        cases hok
        rcases List.mem_cons.mp hr with rfl | hr
        · simp [reqWithoutUserCookies, tryHttpFetchReq, hsome]
        rcases List.mem_cons.mp hr with rfl | hr
        · simp [reqWithoutUserCookies, hsome]
        · simp at hr
  · intro hnone reqs hok
    subst hnone
    rw [getChapterRequests] at hok
    simp only [Option.isSome_none, Bool.false_and, Bool.false_eq_true, if_false] at hok
    rw [getPageRequests] at hok
    simp only [Bool.not_false, Bool.true_and] at hok
    by_cases hsess : hasSessionCookies cookies
    · rw [if_neg (by simp [hsess])] at hok
      have hne : getCookiesForFetch cookies ≠ "" := by
        cases cookies with
        | nil => simp [hasSessionCookies] at hsess
        | cons c cs => exact getCookiesForFetch_ne_empty c cs
      by_cases hhttp : httpOk
      · rw [if_pos hhttp] at hok
        cases hok
        refine ⟨by simp, ?_⟩
        intro r hr
        simp only [List.mem_singleton] at hr
        subst hr
        simp [reqWithUserCookies, tryHttpFetchReq, hne]
      · rw [if_neg hhttp] at hok
        cases hok
        refine ⟨by simp, ?_⟩
        intro r hr
        rcases List.mem_cons.mp hr with rfl | hr
        · simp [reqWithUserCookies, tryHttpFetchReq, hne]
        rcases List.mem_cons.mp hr with rfl | hr
        · simp [reqWithUserCookies]
        · simp at hr
    · rw [if_pos (by simp [hsess])] at hok
      cases hok

/-- Witness for C1 at concrete inputs: a pre-cache call on an empty cache
issues exactly a cookie-less HTTP request; a live call with the session
cookie stored and a failing fast path issues the cookie-carrying HTTP
request followed by an authenticated browser navigation. -/
theorem getChapter_context_isolation_witness :
    (∀ r ∈ ([PageReq.http ⟨false, none⟩] : List PageReq),
      reqWithoutUserCookies r = true) ∧
    (([PageReq.http ⟨true, some ".AspNetCore.Identity.Application=s"⟩,
       PageReq.browser .auth] : List PageReq) ≠ [] ∧
      ∀ r ∈ ([PageReq.http ⟨true, some ".AspNetCore.Identity.Application=s"⟩,
              PageReq.browser .auth] : List PageReq),
        reqWithUserCookies [⟨".AspNetCore.Identity.Application", "s"⟩] r = true) := by
  constructor
  · exact (getChapter_context_isolation [] 0 7
      [⟨".AspNetCore.Identity.Application", "s"⟩] true (some 60)).1 rfl
      [PageReq.http ⟨false, none⟩] rfl
  · exact (getChapter_context_isolation [] 0 7
      [⟨".AspNetCore.Identity.Application", "s"⟩] false none).2 rfl
      [PageReq.http ⟨true, some ".AspNetCore.Identity.Application=s"⟩,
       PageReq.browser .auth] rfl

/-! ### Claim C2: cache effects of `getChapter`

`getChapter` reads the cache only in pre-caching mode; after a fetch it
always writes `chapter:{id}` with the 30-day TTL, and only on a live read
deletes `fiction:{fictionId}` (when the extracted fiction id is non-zero —
`if (fictionInfo.fictionId)`) and `"follows"`, then schedules a pre-cache of
the next chapter. -/

/-- `CACHE_TTL.CHAPTER` (config.ts): 30 days in seconds. -/
def CACHE_TTL_CHAPTER : Nat := 30 * 24 * 60 * 60

/-- Cache key `fiction:{id}`. -/
def fictionCacheKey (id : Nat) : String :=
  "fiction:" ++ toString id

/-- The `ChapterContent` record (types.ts) produced by `getChapter`. -/
structure ChapterContent where
  id : Nat
  fictionId : Nat
  title : String
  content : String
  prevChapterUrl : Option String
  nextChapterUrl : Option String
  fictionTitle : String
  fictionUrl : String
deriving Repr, DecidableEq

/-- What retrieval + extraction of a chapter page produced, abstracted from
the HTML: the parsed fiction info, the sanitized body and the navigation
target ids. `fictionId = 0` is the code's marker for a fiction link that
could not be parsed. -/
structure FetchedChapter where
  fictionId : Nat
  fictionTitle : String
  title : String
  cleanContent : String
  prevChapterUrl : Option String
  nextChapterUrl : Option String
  nextChapterId : Option Nat
deriving Repr, DecidableEq

/-- The `ChapterContent` record `getChapter` assembles from a fetch. -/
def mkChapterResult (chapterId : Nat) (f : FetchedChapter) : ChapterContent :=
  { id := chapterId,
    fictionId := f.fictionId,
    title := f.title,
    content := f.cleanContent,
    prevChapterUrl := f.prevChapterUrl,
    nextChapterUrl := f.nextChapterUrl,
    fictionTitle := f.fictionTitle,
    fictionUrl := "/fiction/" ++ toString f.fictionId }

/-- `JSON.stringify` of a `ChapterContent` (field order as in the object
literal; `undefined` optional fields are omitted). The payload is opaque to
the rest of the system. -/
def encodeChapterContent (c : ChapterContent) : String :=
  "\x7b\"id\":" ++ toString c.id ++
  ",\"fictionId\":" ++ toString c.fictionId ++
  ",\"title\":\"" ++ c.title ++
  "\",\"content\":\"" ++ c.content ++ "\"" ++
  (match c.prevChapterUrl with
   | some u => ",\"prevChapterUrl\":\"" ++ u ++ "\""
   | none => "") ++
  (match c.nextChapterUrl with
   | some u => ",\"nextChapterUrl\":\"" ++ u ++ "\""
   | none => "") ++
  ",\"fictionTitle\":\"" ++ c.fictionTitle ++
  "\",\"fictionUrl\":\"" ++ c.fictionUrl ++ "\"\x7d"

/-- How a `getChapter` call returned: deserialized straight from the cache
(pre-caching mode hit) or assembled from a fetch. -/
inductive ChapterRead
  | cachedHit (raw : String)
  | fetched (c : ChapterContent)
deriving Repr, DecidableEq

/-- The cache-state effect of `getChapter(chapterId, ttl?)` (scraper.ts):
returns the new text-cache table, how the result was produced, and the
chapter id scheduled for asynchronous pre-caching (live reads only, and only
when the extracted next-chapter id is a non-zero number). -/
def getChapterEffect (db : List CacheRow) (now chapterId : Nat) (ttl : Option Nat)
    (f : FetchedChapter) : List CacheRow × ChapterRead × Option Nat :=
  let cacheKey := chapterCacheKey chapterId
  let isPreCaching := ttl.isSome
  match (if isPreCaching then getCache db now cacheKey else none) with
  | some cached => (db, .cachedHit cached, none)
  | none =>
    let result := mkChapterResult chapterId f
    let db1 := setCache db now cacheKey (encodeChapterContent result) CACHE_TTL_CHAPTER
    let db2 :=
      if isPreCaching then db1
      else if f.fictionId != 0 then (deleteCache db1 (fictionCacheKey f.fictionId)).1
      else db1
    let db3 := if isPreCaching then db2 else (deleteCache db2 "follows").1
    let scheduled :=
      if isPreCaching then none
      else match f.nextChapterId with
        | some n => if n != 0 then some n else none
        | none => none
    (db3, .fetched result, scheduled)

/-- Row lookup by primary key, ignoring expiry (used to state frame
conditions: "this key's row is unchanged"). -/
def lookupRow (db : List CacheRow) (k : String) : Option CacheRow :=
  db.find? (fun r => r.url == k)

theorem find?_filter_of_imp (db : List CacheRow) (p q : CacheRow → Bool)
    (h : ∀ r, q r = true → p r = true) :
    (db.filter p).find? q = db.find? q := by
  induction db with
  | nil => rfl
  | cons r rest ih =>
    cases hq : q r with
    | true =>
      have hp := h r hq
      simp [List.filter_cons, hp, List.find?_cons, hq]
    | false =>
      cases hp : p r with
      | true => simp [List.filter_cons, hp, List.find?_cons, hq, ih]
      | false => simp [List.filter_cons, hp, List.find?_cons, hq, ih]

theorem lookupRow_delete_ne (db : List CacheRow) (key k : String) (h : k ≠ key) :
    lookupRow (deleteCache db key).1 k = lookupRow db k := by
  rw [lookupRow, lookupRow, deleteCache]
  refine find?_filter_of_imp db _ _ (fun r hr => ?_)
  simp only [beq_iff_eq] at hr
  simp [hr, h]

theorem getCache_delete_ne (db : List CacheRow) (now : Nat) (key k : String)
    (h : k ≠ key) :
    getCache (deleteCache db key).1 now k = getCache db now k := by
  rw [getCache, getCache, deleteCache]
  rw [find?_filter_of_imp db _ _ (fun r hr => ?_)]
  simp only [Bool.and_eq_true, beq_iff_eq] at hr
  simp [hr.1, h]

theorem any_url_delete_self (db : List CacheRow) (key : String) :
    ((deleteCache db key).1.any (fun r => r.url == key)) = false := by
  rw [deleteCache]
  induction db with
  | nil => rfl
  | cons r rest ih =>
    by_cases hr : r.url = key
    · simp [List.filter_cons, hr, ih]
    · simp [List.filter_cons, hr, ih]

theorem any_filter_false (l : List CacheRow) (p q : CacheRow → Bool)
    (h : l.any q = false) : (l.filter p).any q = false := by
  induction l with
  | nil => rfl
  | cons r rest ih =>
    simp only [List.any_cons, Bool.or_eq_false_iff] at h
    cases hp : p r with
    | true => simp [List.filter_cons, hp, List.any_cons, h.1, ih h.2]
    | false => simp [List.filter_cons, hp, ih h.2]

theorem lookupRow_upsert_ne (db : List CacheRow) (row : CacheRow) (k : String)
    (h : k ≠ row.url) :
    lookupRow (upsertRow db row) k = lookupRow db k := by
  induction db with
  | nil => simp [upsertRow, lookupRow, List.find?_cons, Ne.symm h]
  | cons r rest ih =>
    by_cases hurl : r.url = row.url
    · have h1 : (row.url == k) = false := by simp [Ne.symm h]
      have h2 : (r.url == k) = false := by simp [hurl, Ne.symm h]
      simp [upsertRow, hurl, lookupRow, List.find?_cons, h1, h2]
    · have : (r.url == row.url) = false := by simp [hurl]
      simp only [upsertRow, this, Bool.false_eq_true, if_false]
      rw [lookupRow, lookupRow, List.find?_cons, List.find?_cons]
      cases hk : (r.url == k) with
      | true => rfl
      | false => exact ih

theorem any_url_upsert_of (db : List CacheRow) (row : CacheRow) (u : String)
    (h : db.any (fun r => r.url == u) = true) :
    (upsertRow db row).any (fun r => r.url == u) = true := by
  induction db with
  | nil => simp at h
  | cons r rest ih =>
    simp only [List.any_cons, Bool.or_eq_true] at h
    by_cases hurl : r.url = row.url
    · rcases h with h | h
      · simp only [beq_iff_eq] at h
        have : (row.url == u) = true := by simp [← hurl, h]
        simp [upsertRow, hurl, List.any_cons, this]
      · simp [upsertRow, hurl, List.any_cons, h]
    · have hne : (r.url == row.url) = false := by simp [hurl]
      rcases h with h | h
      · simp [upsertRow, hne, List.any_cons, h]
      · simp [upsertRow, hne, List.any_cons, ih h]

theorem chapterCacheKey_ne_fictionCacheKey (a b : Nat) :
    chapterCacheKey a ≠ fictionCacheKey b := by
  intro h
  have h1 : (chapterCacheKey a).data.head? = some 'c' := by
    rw [chapterCacheKey, String.data_append]
    rfl
  have h2 : (fictionCacheKey b).data.head? = some 'f' := by
    rw [fictionCacheKey, String.data_append]
    rfl
  rw [h, h2] at h1
  exact absurd h1 (by decide)

theorem chapterCacheKey_ne_follows (a : Nat) : chapterCacheKey a ≠ "follows" := by
  intro h
  have h1 : (chapterCacheKey a).data.head? = some 'c' := by
    rw [chapterCacheKey, String.data_append]
    rfl
  rw [h] at h1
  exact absurd h1 (by decide)

theorem fictionCacheKey_ne_follows (b : Nat) : fictionCacheKey b ≠ "follows" := by
  intro h
  have h1 : ((fictionCacheKey b).data.drop 1).head? = some 'i' := by
    rw [fictionCacheKey, String.data_append]
    rfl
  rw [h] at h1
  exact absurd h1 (by decide)

/-- C2 counterexample: the claim as stated is false when the chapter page's
fiction link cannot be parsed (extracted fiction id 0, the code's failure
marker): a successful live read leaves a pre-existing `fiction:0` cache row
in place, because the invalidation is guarded by JS truthiness
(`if (fictionInfo.fictionId)`). -/
theorem getChapter_live_fiction0_counterexample :
    ((getChapterEffect [⟨"fiction:0", "x", 1000⟩] 0 5 none
        ⟨0, "", "T", "body", none, none, none⟩).1.any
      (fun r => r.url == fictionCacheKey 0)) = true := by decide

/-- C2 (amended): for every successful live chapter read (`getChapter` with
TTL omitted): the cache is not consulted before fetching; the fetched
`ChapterContent` is written under `chapter:{id}`; the entry
`fiction:{fictionId}` is deleted provided the extracted fiction id is
non-zero (0 marks a failed extraction), and `"follows"` is deleted; apart
from the asynchronously scheduled pre-cache of the next chapter, no other
cache key is modified. A pre-caching call (TTL supplied) deletes no cache
entries. -/
theorem getChapter_cache_effects (db : List CacheRow) (now chapterId : Nat)
    (f : FetchedChapter) (hnd : KeysNodup db) :
    (∀ raw, (getChapterEffect db now chapterId none f).2.1 ≠ .cachedHit raw) ∧
    getCache (getChapterEffect db now chapterId none f).1 now (chapterCacheKey chapterId)
      = some (encodeChapterContent (mkChapterResult chapterId f)) ∧
    (f.fictionId ≠ 0 →
      ((getChapterEffect db now chapterId none f).1.any
        (fun r => r.url == fictionCacheKey f.fictionId)) = false) ∧
    ((getChapterEffect db now chapterId none f).1.any
      (fun r => r.url == "follows")) = false ∧
    (∀ k, k ≠ chapterCacheKey chapterId → k ≠ fictionCacheKey f.fictionId →
      k ≠ "follows" →
      lookupRow (getChapterEffect db now chapterId none f).1 k = lookupRow db k) ∧
    (∀ t k, db.any (fun r => r.url == k) = true →
      ((getChapterEffect db now chapterId (some t) f).1.any
        (fun r => r.url == k)) = true) := by
  have hlive : getChapterEffect db now chapterId none f =
      (let result := mkChapterResult chapterId f
       let db1 := setCache db now (chapterCacheKey chapterId)
         (encodeChapterContent result) CACHE_TTL_CHAPTER
       let db2 := if f.fictionId != 0 then (deleteCache db1 (fictionCacheKey f.fictionId)).1
         else db1
       let db3 := (deleteCache db2 "follows").1
       (db3, ChapterRead.fetched result,
        match f.nextChapterId with
        | some n => if n != 0 then some n else none
        | none => none)) := rfl
  refine ⟨?_, ?_, ?_, ?_, ?_, ?_⟩
  · intro raw
    rw [hlive]
    simp
  · rw [hlive]
    simp only
    rw [getCache_delete_ne _ _ _ _ (chapterCacheKey_ne_follows chapterId)]
    by_cases hfid : f.fictionId = 0
    · have : (f.fictionId != 0) = false := by simp [hfid]
      rw [if_neg (by simp [this])]
      rw [setCache, getCache_upsert_self db _ now hnd]
      rw [if_pos (by show now < now + (30 * 24 * 60 * 60); omega)]
    · have : (f.fictionId != 0) = true := by simp [hfid]
      rw [if_pos (by simp [this])]
      rw [getCache_delete_ne _ _ _ _ (chapterCacheKey_ne_fictionCacheKey chapterId f.fictionId)]
      rw [setCache, getCache_upsert_self db _ now hnd]
      rw [if_pos (by show now < now + (30 * 24 * 60 * 60); omega)]
  · intro hfid
    rw [hlive]
    simp only
    rw [if_pos (by simp [hfid])]
    refine any_filter_false _ _ _ ?_
    exact any_url_delete_self _ _
  · rw [hlive]
    simp only
    exact any_url_delete_self _ _
  · intro k hk1 hk2 hk3
    rw [hlive]
    simp only
    rw [lookupRow_delete_ne _ _ _ hk3]
    by_cases hfid : f.fictionId = 0
    · rw [if_neg (by simp [hfid])]
      exact lookupRow_upsert_ne db _ k hk1
    · rw [if_pos (by simp [hfid])]
      rw [lookupRow_delete_ne _ _ _ hk2]
      exact lookupRow_upsert_ne db _ k hk1
  · intro t k hk
    rw [getChapterEffect]
    simp only [Option.isSome_some, if_pos]
    cases hhit : getCache db now (chapterCacheKey chapterId) with
    | some cached => simpa using hk
    | none =>
      simp only
      exact any_url_upsert_of db _ k hk

/-- Witness for C2 (amended) at a concrete input: live read of chapter 5
over a cache holding `fiction:3`, `follows` and an unrelated `toplist:x`
row, with extracted fiction id 3. -/
theorem getChapter_cache_effects_witness :
    getCache (getChapterEffect
        [⟨"fiction:3", "a", 1000⟩, ⟨"follows", "b", 1000⟩, ⟨"toplist:x", "c", 1000⟩]
        0 5 none ⟨3, "F", "T", "body", none, none, some 6⟩).1 0 (chapterCacheKey 5)
      = some (encodeChapterContent (mkChapterResult 5 ⟨3, "F", "T", "body", none, none, some 6⟩)) ∧
    ((getChapterEffect
        [⟨"fiction:3", "a", 1000⟩, ⟨"follows", "b", 1000⟩, ⟨"toplist:x", "c", 1000⟩]
        0 5 none ⟨3, "F", "T", "body", none, none, some 6⟩).1.any
      (fun r => r.url == fictionCacheKey 3)) = false ∧
    ((getChapterEffect
        [⟨"fiction:3", "a", 1000⟩, ⟨"follows", "b", 1000⟩, ⟨"toplist:x", "c", 1000⟩]
        0 5 none ⟨3, "F", "T", "body", none, none, some 6⟩).1.any
      (fun r => r.url == "follows")) = false ∧
    lookupRow (getChapterEffect
        [⟨"fiction:3", "a", 1000⟩, ⟨"follows", "b", 1000⟩, ⟨"toplist:x", "c", 1000⟩]
        0 5 none ⟨3, "F", "T", "body", none, none, some 6⟩).1 "toplist:x"
      = lookupRow [⟨"fiction:3", "a", 1000⟩, ⟨"follows", "b", 1000⟩, ⟨"toplist:x", "c", 1000⟩]
          "toplist:x" := by
  have h := getChapter_cache_effects
    [⟨"fiction:3", "a", 1000⟩, ⟨"follows", "b", 1000⟩, ⟨"toplist:x", "c", 1000⟩]
    0 5 ⟨3, "F", "T", "body", none, none, some 6⟩ (by rw [KeysNodup]; decide)
  exact ⟨h.2.1, h.2.2.1 (by decide), h.2.2.2.1,
    h.2.2.2.2.1 "toplist:x" (by decide) (by decide) (by decide)⟩

/-! ### Claim C4: read-state inference over a fiction's chapter list

HTML fallback path of `getFiction`: while parsing chapter rows the code
records `lastReadChapterIdx` (the index of the *last* row carrying the
reading-progress caret); afterwards, if a marker was found, chapters `0..idx`
are flagged read; otherwise, when a truthy `continueChapterId` was parsed and
`chapters.findIndex(c => c.id === continueChapterId) > 0`, chapters strictly
before that index are flagged read; otherwise none. -/

/-- One parsed chapter row of a fiction page: the chapter id and whether the
row carries the reading-progress caret
(`i.fa-caret-right[data-original-title*='Reading Progress']`). -/
structure ChapterRow where
  id : Nat
  hasProgressMarker : Bool
deriving Repr, DecidableEq

/-- The loop that records the index of the last row carrying the
reading-progress marker (`lastReadChapterIdx`, `-1` becoming `none`). -/
def lastReadChapterIdx (rows : List ChapterRow) : Option Nat :=
  rows.enum.foldl
    (fun acc p => if p.2.hasProgressMarker then some p.1 else acc) none

/-- The read flags `getFiction` assigns to the parsed chapter list, one
`Bool` per chapter in order. `continueChapterId` participates only when
truthy (non-zero) and found at a positive index (`continueIdx > 0`). -/
def readFlags (rows : List ChapterRow) (continueChapterId : Option Nat) : List Bool :=
  match lastReadChapterIdx rows with
  | some l => rows.enum.map (fun p => decide (p.1 ≤ l))
  | none =>
    match continueChapterId with
    | some c =>
      if c != 0 then
        let continueIdx := rows.findIdx (fun r => r.id == c)
        if 0 < continueIdx ∧ continueIdx < rows.length then
          rows.enum.map (fun p => decide (p.1 < continueIdx))
        else rows.map (fun _ => false)
      else rows.map (fun _ => false)
    | none => rows.map (fun _ => false)

theorem foldl_marker_keep (l : List (Nat × ChapterRow)) (i : Nat)
    (h : ∀ p ∈ l, p.2.hasProgressMarker = true → p.1 = i) :
    l.foldl (fun acc p => if p.2.hasProgressMarker then some p.1 else acc) (some i)
      = some i := by
  induction l with
  | nil => rfl
  | cons p rest ih =>
    have hrest : ∀ q ∈ rest, q.2.hasProgressMarker = true → q.1 = i :=
      fun q hq => h q (List.mem_cons_of_mem p hq)
    cases hm : p.2.hasProgressMarker with
    | true =>
      have := h p (List.mem_cons_self p rest) hm
      simp only [List.foldl_cons, hm, if_pos rfl, this]
      exact ih hrest
    | false =>
      simp only [List.foldl_cons, hm, Bool.false_eq_true, if_false]
      exact ih hrest

theorem foldl_marker_none (l : List (Nat × ChapterRow)) (acc : Option Nat)
    (h : ∀ p ∈ l, p.2.hasProgressMarker = false) :
    l.foldl (fun acc p => if p.2.hasProgressMarker then some p.1 else acc) acc = acc := by
  induction l generalizing acc with
  | nil => rfl
  | cons p rest ih =>
    have hp := h p (List.mem_cons_self p rest)
    simp only [List.foldl_cons, hp, Bool.false_eq_true, if_false]
    exact ih acc (fun q hq => h q (List.mem_cons_of_mem p hq))

theorem foldl_marker_unique (l : List (Nat × ChapterRow)) (acc : Option Nat) (i : Nat)
    (hmem : ∃ p ∈ l, p.1 = i ∧ p.2.hasProgressMarker = true)
    (huniq : ∀ p ∈ l, p.2.hasProgressMarker = true → p.1 = i) :
    l.foldl (fun acc p => if p.2.hasProgressMarker then some p.1 else acc) acc
      = some i := by
  induction l generalizing acc with
  | nil => simp at hmem
  | cons p rest ih =>
    have hrest : ∀ q ∈ rest, q.2.hasProgressMarker = true → q.1 = i :=
      fun q hq => huniq q (List.mem_cons_of_mem p hq)
    cases hm : p.2.hasProgressMarker with
    | true =>
      have hpi := huniq p (List.mem_cons_self p rest) hm
      simp only [List.foldl_cons, hm, if_pos rfl, hpi]
      exact foldl_marker_keep rest i hrest
    | false =>
      simp only [List.foldl_cons, hm, Bool.false_eq_true, if_false]
      rcases hmem with ⟨q, hq, hqi, hqm⟩
      rcases List.mem_cons.mp hq with rfl | hq
      · rw [hm] at hqm
        exact absurd hqm (by simp)
      · exact ih acc ⟨q, hq, hqi, hqm⟩ hrest

theorem map_const_false_enumFrom (l : List ChapterRow) (n : Nat) :
    (List.enumFrom n l).map (fun _ => false) = l.map (fun _ => false) := by
  induction l generalizing n with
  | nil => rfl
  | cons r rest ih => simp [List.enumFrom, ih]

theorem snd_mem_of_mem_enumFrom (l : List ChapterRow) (n : Nat) (p : Nat × ChapterRow)
    (hp : p ∈ List.enumFrom n l) : p.2 ∈ l := by
  induction l generalizing n with
  | nil => simp [List.enumFrom] at hp
  | cons r rest ih =>
    rw [List.enumFrom] at hp
    rcases List.mem_cons.mp hp with rfl | hp
    · exact List.mem_cons_self r rest
    · exact List.mem_cons_of_mem r (ih (n + 1) hp)

/-- C4 counterexample: the claim as stated is false for a continue-pointer
with chapter id 0 (JS truthiness: `if (continueChapterId)` skips the
branch). No progress marker is present, the continue reference 0 matches the
chapter at index 1, yet no chapter is flagged read — the claim requires the
chapter at index 0 to be flagged. -/
theorem readFlags_zero_continue_counterexample :
    (∀ r ∈ ([⟨5, false⟩, ⟨0, false⟩] : List ChapterRow), r.hasProgressMarker = false) ∧
    ([⟨5, false⟩, ⟨0, false⟩] : List ChapterRow).findIdx (fun r => r.id == 0) = 1 ∧
    readFlags [⟨5, false⟩, ⟨0, false⟩] (some 0) = [false, false] := by
  refine ⟨by decide, by decide, by decide⟩

/-- C4 (amended): for every parsed chapter list: if the reading-progress
marker occurs exactly at index `i`, exactly chapters `0..i` are flagged
read; otherwise, if a continue-reading reference with non-zero id matches a
chapter, exactly the chapters strictly before the first matching chapter are
flagged read; otherwise (no marker and no matching non-zero continue
reference) no chapter is flagged read. -/
theorem readFlags_correct (rows : List ChapterRow) (c? : Option Nat) :
    (∀ i,
      (∃ p ∈ rows.enum, p.1 = i ∧ p.2.hasProgressMarker = true) →
      (∀ p ∈ rows.enum, p.2.hasProgressMarker = true → p.1 = i) →
      readFlags rows c? = rows.enum.map (fun p => decide (p.1 ≤ i))) ∧
    (∀ c,
      (∀ r ∈ rows, r.hasProgressMarker = false) →
      c? = some c → c ≠ 0 →
      rows.findIdx (fun r => r.id == c) < rows.length →
      readFlags rows c? =
        rows.enum.map (fun p => decide (p.1 < rows.findIdx (fun r => r.id == c)))) ∧
    ((∀ r ∈ rows, r.hasProgressMarker = false) →
      (c? = none ∨ c? = some 0 ∨
        ∃ c, c? = some c ∧ rows.length ≤ rows.findIdx (fun r => r.id == c)) →
      readFlags rows c? = rows.map (fun _ => false)) := by
  refine ⟨?_, ?_, ?_⟩
  · intro i hmem huniq
    have hlast : lastReadChapterIdx rows = some i := by
      rw [lastReadChapterIdx]
      exact foldl_marker_unique rows.enum none i hmem huniq
    simp only [readFlags, hlast]
  · intro c hnomark hc hc0 hfound
    have hmarkers : ∀ p ∈ rows.enum, p.2.hasProgressMarker = false := by
      intro p hp
      exact hnomark p.2 (snd_mem_of_mem_enumFrom rows 0 p hp)
    have hlast : lastReadChapterIdx rows = none := by
      rw [lastReadChapterIdx]
      exact foldl_marker_none rows.enum none hmarkers
    subst hc
    simp only [readFlags, hlast]
    rw [if_pos (by simp [hc0])]
    by_cases hzero : 0 < rows.findIdx (fun r => r.id == c)
    · rw [if_pos ⟨hzero, hfound⟩]
    · have h0 : rows.findIdx (fun r => r.id == c) = 0 := by omega
      rw [if_neg (by omega)]
      rw [h0]
      have h1 : (rows.enum.map (fun p => decide (p.1 < 0))) = rows.enum.map (fun _ => false) :=
        List.map_congr_left (fun p _ => by simp)
      rw [h1, List.enum]
      exact (map_const_false_enumFrom rows 0).symm
  · intro hnomark hcases
    have hmarkers : ∀ p ∈ rows.enum, p.2.hasProgressMarker = false := by
      intro p hp
      exact hnomark p.2 (snd_mem_of_mem_enumFrom rows 0 p hp)
    have hlast : lastReadChapterIdx rows = none := by
      rw [lastReadChapterIdx]
      exact foldl_marker_none rows.enum none hmarkers
    rcases hcases with h | h | ⟨c, hc, hlen⟩
    · subst h
      simp only [readFlags, hlast]
    · subst h
      simp only [readFlags, hlast]
      rfl
    · subst hc
      simp only [readFlags, hlast]
      by_cases hc0 : c = 0
      · rw [if_neg (by simp [hc0])]
      · rw [if_pos (by simp [hc0])]
        rw [if_neg (by omega)]

/-- Witness for C4 (amended) at the spec's example: 5 chapters; with the
marker at index 2, chapters 0–2 are read; with no marker and a continue
pointer equal to the id at index 3, chapters 0–2 are read. -/
theorem readFlags_correct_witness :
    readFlags [⟨10, false⟩, ⟨11, false⟩, ⟨12, true⟩, ⟨13, false⟩, ⟨14, false⟩] none
      = [true, true, true, false, false] ∧
    readFlags [⟨10, false⟩, ⟨11, false⟩, ⟨12, false⟩, ⟨13, false⟩, ⟨14, false⟩] (some 13)
      = [true, true, true, false, false] := by
  constructor
  · have h := (readFlags_correct
      [⟨10, false⟩, ⟨11, false⟩, ⟨12, true⟩, ⟨13, false⟩, ⟨14, false⟩] none).1 2
      (by decide) (by decide)
    rw [h]
    decide
  · have h := (readFlags_correct
      [⟨10, false⟩, ⟨11, false⟩, ⟨12, false⟩, ⟨13, false⟩, ⟨14, false⟩] (some 13)).2.1 13
      (by decide) rfl (by decide) (by decide)
    rw [h]
    decide

/-! ### Chapter-body sanitization: class attribute cleaning (claim C10)

`getChapter` post-processes the chapter body: for every descendant with a
`class` attribute it keeps only the tokens passing
`c.length < 20 && !/^[a-z]{20,}$/i.test(c)` of `classList.split(' ')`,
re-joins them with `' '`, and drops the attribute entirely when the joined
string is empty (JS truthiness). Tokens are modelled at the character-list
level; JS string length is UTF-16 code units, which agrees with character
counts on the ASCII class names involved. -/

/-- JavaScript `String.prototype.split(' ')` on the character level: split
at every single space, keeping empty pieces. -/
def splitSpaceAux : List Char → List (List Char)
  | [] => [[]]
  | c :: rest =>
    if c = ' ' then [] :: splitSpaceAux rest
    else
      match splitSpaceAux rest with
      | [] => [[c]]
      | h :: t => (c :: h) :: t

/-- JavaScript `Array.prototype.join(' ')` on the character level. -/
def joinPieces : List (List Char) → List Char
  | [] => []
  | [p] => p
  | p :: ps => p ++ ' ' :: joinPieces ps

/-- The regex `/^[a-z]{20,}$/i`: an ASCII-letter run of length at least 20. -/
def isAlphaRun20 (t : List Char) : Bool :=
  decide (20 ≤ t.length) && t.all (fun ch => ch.isAlpha)

/-- The filter applied to each class token:
`c.length < 20 && !/^[a-z]{20,}$/i.test(c)`. -/
def keepClassTok (t : List Char) : Bool :=
  decide (t.length < 20) && !(isAlphaRun20 t)

/-- The per-element class-attribute cleaning: split on `' '`, filter, join;
set the attribute to the joined string when non-empty, otherwise remove the
attribute. -/
def cleanClassAttr (s : String) : Option String :=
  let kept := (splitSpaceAux s.toList).filter keepClassTok
  let joined := joinPieces kept
  if joined.isEmpty then none else some (String.mk joined)

/-- The tokens of an optional class attribute. -/
def tokensOfAttr : Option String → List (List Char)
  | none => []
  | some a => splitSpaceAux a.toList

theorem splitSpaceAux_ne_nil (l : List Char) : splitSpaceAux l ≠ [] := by
  induction l with
  | nil => simp [splitSpaceAux]
  | cons c rest ih =>
    rw [splitSpaceAux]
    by_cases hc : c = ' '
    · simp [hc]
    · rw [if_neg hc]
      rcases hr : splitSpaceAux rest with _ | ⟨h, t⟩
      · exact absurd hr ih
      · simp

theorem splitSpaceAux_cons_nospace (c : Char) (rest : List Char) (hc : ¬ c = ' ') :
    splitSpaceAux (c :: rest) =
      (c :: (splitSpaceAux rest).headD []) :: (splitSpaceAux rest).tail := by
  rw [splitSpaceAux, if_neg hc]
  rcases hr : splitSpaceAux rest with _ | ⟨h, t⟩
  · exact absurd hr (splitSpaceAux_ne_nil rest)
  · simp

theorem splitSpaceAux_no_space (l : List Char) :
    ∀ p ∈ splitSpaceAux l, ' ' ∉ p := by
  induction l with
  | nil =>
    intro p hp
    simp only [splitSpaceAux, List.mem_singleton] at hp
    simp [hp]
  | cons c rest ih =>
    intro p hp
    by_cases hc : c = ' '
    · subst hc
      rw [splitSpaceAux, if_pos rfl] at hp
      rcases List.mem_cons.mp hp with rfl | hp
      · simp
      · exact ih p hp
    · rw [splitSpaceAux_cons_nospace c rest hc] at hp
      rcases hr : splitSpaceAux rest with _ | ⟨h, t⟩
      · exact absurd hr (splitSpaceAux_ne_nil rest)
      · rw [hr] at hp
        simp only [List.headD_cons, List.tail_cons] at hp
        rcases List.mem_cons.mp hp with rfl | hp
        · intro hmem
          rcases List.mem_cons.mp hmem with h' | h'
          · exact hc h'.symm
          · exact ih h (by rw [hr]; exact List.mem_cons_self h t) h'
        · exact ih p (by rw [hr]; exact List.mem_cons_of_mem h hp)

theorem splitSpaceAux_nospace_id (p : List Char) (hp : ' ' ∉ p) :
    splitSpaceAux p = [p] := by
  induction p with
  | nil => rfl
  | cons c cs ih =>
    have hc : ¬ c = ' ' := fun h => hp (h ▸ List.mem_cons_self c cs)
    have hcs : ' ' ∉ cs := fun h => hp (List.mem_cons_of_mem c h)
    rw [splitSpaceAux_cons_nospace c cs hc, ih hcs]
    rfl

theorem splitSpaceAux_append_space (p l : List Char) (hp : ' ' ∉ p) :
    splitSpaceAux (p ++ ' ' :: l) = p :: splitSpaceAux l := by
  induction p with
  | nil => rw [List.nil_append, splitSpaceAux, if_pos rfl]
  | cons c cs ih =>
    have hc : ¬ c = ' ' := fun h => hp (h ▸ List.mem_cons_self c cs)
    have hcs : ' ' ∉ cs := fun h => hp (List.mem_cons_of_mem c h)
    rw [List.cons_append, splitSpaceAux_cons_nospace c _ hc, ih hcs]
    simp

theorem joinPieces_split_roundtrip (ps : List (List Char)) (hne : ps ≠ [])
    (hns : ∀ p ∈ ps, ' ' ∉ p) :
    splitSpaceAux (joinPieces ps) = ps := by
  induction ps with
  | nil => exact absurd rfl hne
  | cons p ps ih =>
    cases ps with
    | nil =>
      rw [joinPieces]
      exact splitSpaceAux_nospace_id p (hns p (List.mem_cons_self p []))
    | cons q qs =>
      have hq : joinPieces (p :: q :: qs) = p ++ ' ' :: joinPieces (q :: qs) := rfl
      have hrest : splitSpaceAux (joinPieces (q :: qs)) = q :: qs :=
        ih (by simp) (fun r hr => hns r (List.mem_cons_of_mem p hr))
      rw [hq, splitSpaceAux_append_space p _ (hns p (List.mem_cons_self p (q :: qs))),
        hrest]

theorem joinPieces_ne_nil_of_mem (ps : List (List Char)) (t : List Char)
    (ht : t ∈ ps) (htne : t ≠ []) : joinPieces ps ≠ [] := by
  induction ps with
  | nil => simp at ht
  | cons p rest ih =>
    cases rest with
    | nil =>
      simp only [List.mem_singleton] at ht
      subst ht
      exact htne
    | cons q qs =>
      have hj : joinPieces (p :: q :: qs) = p ++ ' ' :: joinPieces (q :: qs) := rfl
      rw [hj]
      simp

/-- C10: in the sanitized class attribute: every surviving token is shorter
than 20 characters; every non-empty token shorter than 20 characters is
kept; and when every token has length at least 20, the class attribute is
removed entirely. -/
theorem cleanClassAttr_correct (s : String) :
    (∀ t ∈ tokensOfAttr (cleanClassAttr s), t.length < 20) ∧
    (∀ t ∈ splitSpaceAux s.toList, t ≠ [] → t.length < 20 →
      t ∈ tokensOfAttr (cleanClassAttr s)) ∧
    ((∀ t ∈ splitSpaceAux s.toList, 20 ≤ t.length) → cleanClassAttr s = none) := by
  have hkept : ∀ t ∈ (splitSpaceAux s.toList).filter keepClassTok, ' ' ∉ t :=
    fun t ht => splitSpaceAux_no_space s.toList t (List.mem_of_mem_filter ht)
  refine ⟨?_, ?_, ?_⟩
  · intro t ht
    rw [cleanClassAttr] at ht
    by_cases hj : (joinPieces ((splitSpaceAux s.toList).filter keepClassTok)).isEmpty
    · rw [if_pos hj] at ht
      simp [tokensOfAttr] at ht
    · rw [if_neg hj] at ht
      simp only [tokensOfAttr] at ht
      have hmk : (String.mk (joinPieces ((splitSpaceAux s.toList).filter keepClassTok))).toList
          = joinPieces ((splitSpaceAux s.toList).filter keepClassTok) := rfl
      rw [hmk] at ht
      have hfne : (splitSpaceAux s.toList).filter keepClassTok ≠ [] := by
        intro h
        rw [h] at hj
        simp [joinPieces] at hj
      rw [joinPieces_split_roundtrip _ hfne hkept] at ht
      have := List.of_mem_filter ht
      rw [keepClassTok] at this
      simp only [Bool.and_eq_true, decide_eq_true_eq] at this
      exact this.1
  · intro t ht htne htlen
    have hkeep : keepClassTok t = true := by
      rw [keepClassTok, isAlphaRun20]
      simp only [Bool.and_eq_true, decide_eq_true_eq, Bool.not_eq_true]
      refine ⟨htlen, ?_⟩
      have h20 : decide (20 ≤ t.length) = false := by
        simp [Nat.not_le.mpr htlen]
      simp [h20]
    have hmem : t ∈ (splitSpaceAux s.toList).filter keepClassTok :=
      List.mem_filter.mpr ⟨ht, hkeep⟩
    have hjne : joinPieces ((splitSpaceAux s.toList).filter keepClassTok) ≠ [] :=
      joinPieces_ne_nil_of_mem _ t hmem htne
    rw [cleanClassAttr, if_neg (by simpa using hjne)]
    simp only [tokensOfAttr]
    have hmk : (String.mk (joinPieces ((splitSpaceAux s.toList).filter keepClassTok))).toList
        = joinPieces ((splitSpaceAux s.toList).filter keepClassTok) := rfl
    rw [hmk, joinPieces_split_roundtrip _ (fun h => hjne (by rw [h]; rfl)) hkept]
    exact hmem
  · intro hall
    have hfilter : (splitSpaceAux s.toList).filter keepClassTok = [] := by
      rw [List.filter_eq_nil_iff]
      intro t ht
      rw [keepClassTok]
      simp only [Bool.and_eq_true, decide_eq_true_eq, not_and]
      intro hlt
      exact absurd (hall t ht) (by omega)
    rw [cleanClassAttr, hfilter]
    rfl

/-! ### DOM model for the chapter body

The chapter body (`.chapter-content` clone) is a tree of elements and text
nodes; only the `class` and `style` attributes matter to sanitization.
`querySelectorAll` searches descendants, so every pass leaves the cloned
root untouched and processes its forest of children. -/

mutual
inductive HNode where
  | elem (tag : String) (classAttr : Option String) (styleAttr : Option String)
      (children : HForest)
  | text (s : String)
inductive HForest where
  | nil
  | cons (n : HNode) (f : HForest)
end

/-- Selector `.c`: the element's class attribute, split on spaces, contains
the token `c`. -/
def bearsClass (cName : String) : HNode → Bool
  | .elem _ (some cls) _ _ => (splitSpaceAux cls.toList).any (fun t => t == cName.toList)
  | _ => false

mutual
/-- `cloned.querySelectorAll('.c').forEach(el => el.remove())`: drop every
descendant bearing class `c` (the root itself is never matched). -/
def removeByClass (c : String) : HNode → HNode
  | .text s => .text s
  | .elem tag cls sty children => .elem tag cls sty (removeByClassF c children)
def removeByClassF (c : String) : HForest → HForest
  | .nil => .nil
  | .cons n f =>
    if bearsClass c n then removeByClassF c f
    else .cons (removeByClass c n) (removeByClassF c f)
end

/-- The non-content blacklist selector
`.author-note, .ad, .portlet, script, .hidden, .ads, iframe, noscript`. -/
def isBlacklisted (n : HNode) : Bool :=
  match n with
  | .elem tag _ _ _ =>
    tag == "script" || tag == "iframe" || tag == "noscript" ||
    bearsClass "author-note" n || bearsClass "ad" n || bearsClass "portlet" n ||
    bearsClass "hidden" n || bearsClass "ads" n
  | .text _ => false

mutual
def removeBlacklisted : HNode → HNode
  | .text s => .text s
  | .elem tag cls sty children => .elem tag cls sty (removeBlacklistedF children)
def removeBlacklistedF : HForest → HForest
  | .nil => .nil
  | .cons n f =>
    if isBlacklisted n then removeBlacklistedF f
    else .cons (removeBlacklisted n) (removeBlacklistedF f)
end

/-- Class-attribute cleaning lifted to an optional attribute (elements with
no `class` attribute are not matched by `[class]`). -/
def cleanClsOpt : Option String → Option String
  | none => none
  | some s => cleanClassAttr s

mutual
/-- `cloned.querySelectorAll('[class]')` pass: clean every descendant's
class attribute. -/
def cleanClassesNode : HNode → HNode
  | .text s => .text s
  | .elem tag cls sty children =>
    .elem tag (cleanClsOpt cls) sty (cleanClassesF children)
def cleanClassesF : HForest → HForest
  | .nil => .nil
  | .cons n f => .cons (cleanClassesNode n) (cleanClassesF f)
end

/-- JavaScript `String.prototype.trim()` at the character level. -/
def jsTrim (l : List Char) : List Char :=
  ((l.dropWhile Char.isWhitespace).reverse.dropWhile Char.isWhitespace).reverse

/-- First match of `/prop\s*([^;]+)/i` (with `prop` ending in `:`), already
trimmed as the code does with the captured group. -/
def propCapture (prop : List Char) : List Char → Option (List Char)
  | [] => none
  | l@(_ :: rest) =>
    if caselessIsPrefix prop l then
      let raw := (l.drop prop.length).takeWhile (fun ch => ch ≠ ';')
      if raw.isEmpty then propCapture prop rest
      else some (jsTrim raw)
    else propCapture prop rest

/-- `Array.prototype.join('; ')` at the character level. -/
def joinSemiLC : List (List Char) → List Char
  | [] => []
  | [p] => p
  | p :: ps => p ++ ';' :: ' ' :: joinSemiLC ps

/-- The style allow-list: keep only `text-align`, `font-weight` and
`font-style` declarations, rebuilt as `prop: value` joined by `; `; remove
the attribute when none matched. -/
def cleanStyleAttr (s : String) : Option String :=
  let sl := s.toList
  let items :=
    (match propCapture "text-align:".toList sl with
     | some v => ["text-align: ".toList ++ v]
     | none => []) ++
    (match propCapture "font-weight:".toList sl with
     | some v => ["font-weight: ".toList ++ v]
     | none => []) ++
    (match propCapture "font-style:".toList sl with
     | some v => ["font-style: ".toList ++ v]
     | none => [])
  match items with
  | [] => none
  | _ => some (String.mk (joinSemiLC items))

/-- Style-attribute cleaning lifted to an optional attribute. -/
def cleanStyOpt : Option String → Option String
  | none => none
  | some s => cleanStyleAttr s

mutual
/-- `cloned.querySelectorAll('[style]')` pass: collapse every descendant's
inline style to the allow-list. -/
def cleanStylesNode : HNode → HNode
  | .text s => .text s
  | .elem tag cls sty children =>
    .elem tag cls (cleanStyOpt sty) (cleanStylesF children)
def cleanStylesF : HForest → HForest
  | .nil => .nil
  | .cons n f => .cons (cleanStylesNode n) (cleanStylesF f)
end

mutual
def textContentN : HNode → List Char
  | .text s => s.toList
  | .elem _ _ _ children => textContentF children
def textContentF : HForest → List Char
  | .nil => []
  | .cons n f => textContentN n ++ textContentF f
end

mutual
def subtreeHasClassN (c : String) : HNode → Bool
  | .text _ => false
  | .elem tag cls sty children =>
    bearsClass c (.elem tag cls sty children) || subtreeHasClassF c children
def subtreeHasClassF (c : String) : HForest → Bool
  | .nil => false
  | .cons n f => subtreeHasClassN c n || subtreeHasClassF c f
end

mutual
def subtreeHasBlackN : HNode → Bool
  | .text _ => false
  | .elem tag cls sty children =>
    isBlacklisted (.elem tag cls sty children) || subtreeHasBlackF children
def subtreeHasBlackF : HForest → Bool
  | .nil => false
  | .cons n f => subtreeHasBlackN n || subtreeHasBlackF f
end

/-- Every token of the class attribute is shorter than 20 characters. -/
def attrTokensShort : Option String → Bool
  | none => true
  | some s => (splitSpaceAux s.toList).all (fun t => decide (t.length < 20))

mutual
def tokensShortN : HNode → Bool
  | .text _ => true
  | .elem _ cls _ children => attrTokensShort cls && tokensShortF children
def tokensShortF : HForest → Bool
  | .nil => true
  | .cons n f => tokensShortN n && tokensShortF f
end

/-! ### Hidden-class extraction from the raw page HTML

`getChapter` scans the raw page string for `<style>` blocks
(`/<style[^>]*>([\s\S]*?)<\/style>/gi`) and inside each block for rules
`/\.([a-zA-Z0-9_-]+)\s*\{[^}]*display\s*:\s*none[^}]*\}/gi`, collecting the
class names. The scanners mirror the JS regex engine's behaviour on these
patterns (advance one character on a failed match, continue after the match
on success); the `fuel` argument, always instantiated with the input length,
only bounds the recursion. -/

/-- Does the string start with `display\s*:\s*none` (case-insensitive)? -/
def startsDisplayNone (l : List Char) : Bool :=
  if caselessIsPrefix "display".toList l then
    match (l.drop 7).dropWhile Char.isWhitespace with
    | ':' :: r2 => caselessIsPrefix "none".toList (r2.dropWhile Char.isWhitespace)
    | _ => false
  else false

def containsDisplayNone : List Char → Bool
  | [] => false
  | l@(_ :: rest) => startsDisplayNone l || containsDisplayNone rest

/-- The regex class-name character set `[a-zA-Z0-9_-]`. -/
def isClassNameChar (ch : Char) : Bool :=
  ch.isAlphanum || ch == '_' || ch == '-'

def scanHiddenClassesF : Nat → List Char → List String
  | 0, _ => []
  | _, [] => []
  | fuel + 1, c :: rest =>
    if c = '.' then
      let cls := rest.takeWhile isClassNameChar
      if cls.isEmpty then scanHiddenClassesF fuel rest
      else
        match (rest.dropWhile isClassNameChar).dropWhile Char.isWhitespace with
        | '\x7b' :: bodyStart =>
          let body := bodyStart.takeWhile (fun ch => ch ≠ '\x7d')
          match bodyStart.dropWhile (fun ch => ch ≠ '\x7d') with
          | '\x7d' :: tail =>
            if containsDisplayNone body then String.mk cls :: scanHiddenClassesF fuel tail
            else scanHiddenClassesF fuel rest
          | _ => scanHiddenClassesF fuel rest
        | _ => scanHiddenClassesF fuel rest
    else scanHiddenClassesF fuel rest

def scanHiddenClasses (l : List Char) : List String :=
  scanHiddenClassesF l.length l

/-- Split at the first (case-insensitive) `</style>`: the part before it and
the part after it. -/
def findCloseSplit : List Char → Option (List Char × List Char)
  | [] => none
  | l@(c :: rest) =>
    if caselessIsPrefix "</style>".toList l then some ([], l.drop 8)
    else
      match findCloseSplit rest with
      | some (b, t) => some (c :: b, t)
      | none => none

def extractStyleBlocksF : Nat → List Char → List (List Char)
  | 0, _ => []
  | _, [] => []
  | fuel + 1, l@(_ :: rest) =>
    if caselessIsPrefix "<style".toList l then
      let afterTag := l.drop 6
      let attrs := afterTag.takeWhile (fun ch => ch ≠ '>')
      match afterTag.dropWhile (fun ch => ch ≠ '>') with
      | '>' :: bodyStart =>
        match findCloseSplit bodyStart with
        | some (body, tail) =>
          l.take (6 + attrs.length + 1 + body.length + 8) :: extractStyleBlocksF fuel tail
        | none => extractStyleBlocksF fuel rest
      | _ => extractStyleBlocksF fuel rest
    else extractStyleBlocksF fuel rest

def extractStyleBlocks (l : List Char) : List (List Char) :=
  extractStyleBlocksF l.length l

/-- The hidden (anti-piracy) class names collected from all `<style>` blocks
of the raw page. -/
def extractHiddenClasses (content : String) : List String :=
  ((extractStyleBlocks content.toList).map (fun b => scanHiddenClasses b)).flatten

/-- The full sanitization pipeline applied to the chapter body's children:
remove elements bearing a CSS-hidden class, remove the non-content
blacklist, clean obfuscated class tokens, collapse inline styles. -/
def sanitizeForest (content : String) (f : HForest) : HForest :=
  let hidden := extractHiddenClasses content
  let f1 := hidden.foldl (fun acc c => removeByClassF c acc) f
  let f2 := removeBlacklistedF f1
  let f3 := cleanClassesF f2
  cleanStylesF f3

/-- Sanitization of the cloned `.chapter-content` element: the root is kept,
its children forest is processed. -/
def sanitizeChapterBody (content : String) : HNode → HNode
  | .text s => .text s
  | .elem tag cls sty children => .elem tag cls sty (sanitizeForest content children)

/-! ### Claim C10: obfuscated class-token cleaning -/

theorem attrTokensShort_cleanClassAttr (s : String) :
    attrTokensShort (cleanClassAttr s) = true := by
  cases hc : cleanClassAttr s with
  | none => rfl
  | some a =>
    rw [attrTokensShort, List.all_eq_true]
    intro t ht
    have h1 := (cleanClassAttr_correct s).1 t (by rw [hc]; exact ht)
    simpa using h1

mutual
theorem tokensShortN_cleanClasses : ∀ n : HNode, tokensShortN (cleanClassesNode n) = true
  | .text s => rfl
  | .elem tag cls sty children => by
    show (attrTokensShort (cleanClsOpt cls)
      && tokensShortF (cleanClassesF children)) = true
    rw [tokensShortF_cleanClasses children, Bool.and_true]
    cases cls with
    | none => rfl
    | some s => exact attrTokensShort_cleanClassAttr s
theorem tokensShortF_cleanClasses : ∀ f : HForest, tokensShortF (cleanClassesF f) = true
  | .nil => rfl
  | .cons n f => by
    rw [cleanClassesF, tokensShortF, tokensShortN_cleanClasses n,
      tokensShortF_cleanClasses f]
    rfl
end

mutual
theorem tokensShortN_cleanStyles : ∀ n : HNode, tokensShortN n = true →
    tokensShortN (cleanStylesNode n) = true
  | .text _, _ => rfl
  | .elem tag cls sty children, h => by
    rw [tokensShortN, Bool.and_eq_true] at h
    show (attrTokensShort cls && tokensShortF (cleanStylesF children)) = true
    rw [h.1, tokensShortF_cleanStyles children h.2]
    rfl
theorem tokensShortF_cleanStyles : ∀ f : HForest, tokensShortF f = true →
    tokensShortF (cleanStylesF f) = true
  | .nil, _ => rfl
  | .cons n f, h => by
    rw [tokensShortF, Bool.and_eq_true] at h
    rw [cleanStylesF, tokensShortF, tokensShortN_cleanStyles n h.1,
      tokensShortF_cleanStyles f h.2]
    rfl
end

/-- C10: in the sanitized chapter body every surviving class token of every
descendant element is shorter than 20 characters; per attribute, every
non-empty token shorter than 20 is kept, and when every token has length at
least 20 the class attribute is removed entirely. -/
theorem sanitize_class_token_policy (content : String) (f : HForest) (s : String) :
    tokensShortF (sanitizeForest content f) = true ∧
    (∀ t ∈ tokensOfAttr (cleanClassAttr s), t.length < 20) ∧
    (∀ t ∈ splitSpaceAux s.toList, t ≠ [] → t.length < 20 →
      t ∈ tokensOfAttr (cleanClassAttr s)) ∧
    ((∀ t ∈ splitSpaceAux s.toList, 20 ≤ t.length) → cleanClassAttr s = none) := by
  refine ⟨?_, (cleanClassAttr_correct s).1, (cleanClassAttr_correct s).2.1,
    (cleanClassAttr_correct s).2.2⟩
  rw [sanitizeForest]
  exact tokensShortF_cleanStyles _ (tokensShortF_cleanClasses _)

/-- Witness for C10 at a concrete input: an element with one 25-character
class token and one short token; the long token is dropped, the short one
kept, and a fully obfuscated attribute is removed. -/
theorem sanitize_class_token_policy_witness :
    tokensShortF (sanitizeForest ""
      (.cons (.elem "span" (some "abcdefghijklmnopqrstuvwxy bold") none .nil) .nil)) = true ∧
    ("bold".toList ∈ tokensOfAttr (cleanClassAttr "abcdefghijklmnopqrstuvwxy bold")) ∧
    cleanClassAttr "abcdefghijklmnopqrstuvwxy" = none := by
  have h := sanitize_class_token_policy ""
    (.cons (.elem "span" (some "abcdefghijklmnopqrstuvwxy bold") none .nil) .nil)
    "abcdefghijklmnopqrstuvwxy bold"
  refine ⟨h.1, h.2.2.1 "bold".toList (by decide) (by decide) (by decide), ?_⟩
  exact (sanitize_class_token_policy "" .nil "abcdefghijklmnopqrstuvwxy").2.2.2
    (by decide)

/-! ### Claim C5: hidden-class stripping -/

theorem bearsClass_eq (c : String) (tag : String) (cls : Option String)
    (sty sty' : Option String) (f f' : HForest) :
    bearsClass c (.elem tag cls sty f) = bearsClass c (.elem tag cls sty' f') := by
  cases cls <;> rfl

theorem removeByClassF_cons (c : String) (n : HNode) (f : HForest) :
    removeByClassF c (.cons n f) =
      if bearsClass c n then removeByClassF c f
      else .cons (removeByClass c n) (removeByClassF c f) := rfl

theorem removeBlacklistedF_cons (n : HNode) (f : HForest) :
    removeBlacklistedF (.cons n f) =
      if isBlacklisted n then removeBlacklistedF f
      else .cons (removeBlacklisted n) (removeBlacklistedF f) := rfl

theorem subtreeHasClassN_elem (c : String) (tag : String) (cls sty : Option String)
    (f : HForest) :
    subtreeHasClassN c (.elem tag cls sty f) =
      (bearsClass c (.elem tag cls sty f) || subtreeHasClassF c f) := rfl

theorem subtreeHasClassF_cons (c : String) (n : HNode) (f : HForest) :
    subtreeHasClassF c (.cons n f) =
      (subtreeHasClassN c n || subtreeHasClassF c f) := rfl

theorem bears_of_subtree_false (c : String) (n : HNode)
    (h : subtreeHasClassN c n = false) : bearsClass c n = false := by
  cases n with
  | text s => rfl
  | elem tag cls sty f =>
    rw [subtreeHasClassN_elem, Bool.or_eq_false_iff] at h
    exact h.1

mutual
theorem subtreeHasClassN_remove_self (c : String) :
    ∀ n : HNode, bearsClass c n = false →
      subtreeHasClassN c (removeByClass c n) = false
  | .text _, _ => rfl
  | .elem tag cls sty children, h => by
    show (bearsClass c (.elem tag cls sty (removeByClassF c children))
      || subtreeHasClassF c (removeByClassF c children)) = false
    rw [bearsClass_eq c tag cls sty sty _ children, h,
      subtreeHasClassF_remove_self c children]
    rfl
theorem subtreeHasClassF_remove_self (c : String) :
    ∀ f : HForest, subtreeHasClassF c (removeByClassF c f) = false
  | .nil => rfl
  | .cons n f => by
    rw [removeByClassF_cons]
    cases hb : bearsClass c n with
    | true =>
      rw [if_pos (by simp [hb])]
      exact subtreeHasClassF_remove_self c f
    | false =>
      rw [if_neg (by simp [hb]), subtreeHasClassF_cons,
        subtreeHasClassN_remove_self c n hb, subtreeHasClassF_remove_self c f]
      rfl
end

mutual
theorem subtreeHasClassN_remove_mono (c c' : String) :
    ∀ n : HNode, subtreeHasClassN c n = false →
      subtreeHasClassN c (removeByClass c' n) = false
  | .text _, _ => rfl
  | .elem tag cls sty children, h => by
    rw [subtreeHasClassN_elem, Bool.or_eq_false_iff] at h
    show (bearsClass c (.elem tag cls sty (removeByClassF c' children))
      || subtreeHasClassF c (removeByClassF c' children)) = false
    rw [bearsClass_eq c tag cls sty sty _ children, h.1,
      subtreeHasClassF_remove_mono c c' children h.2]
    rfl
theorem subtreeHasClassF_remove_mono (c c' : String) :
    ∀ f : HForest, subtreeHasClassF c f = false →
      subtreeHasClassF c (removeByClassF c' f) = false
  | .nil, _ => rfl
  | .cons n f, h => by
    rw [subtreeHasClassF_cons, Bool.or_eq_false_iff] at h
    rw [removeByClassF_cons]
    cases hb : bearsClass c' n with
    | true =>
      rw [if_pos (by simp [hb])]
      exact subtreeHasClassF_remove_mono c c' f h.2
    | false =>
      rw [if_neg (by simp [hb]), subtreeHasClassF_cons,
        subtreeHasClassN_remove_mono c c' n h.1,
        subtreeHasClassF_remove_mono c c' f h.2]
      rfl
end

mutual
theorem subtreeHasClassN_black_mono (c : String) :
    ∀ n : HNode, subtreeHasClassN c n = false →
      subtreeHasClassN c (removeBlacklisted n) = false
  | .text _, _ => rfl
  | .elem tag cls sty children, h => by
    rw [subtreeHasClassN_elem, Bool.or_eq_false_iff] at h
    show (bearsClass c (.elem tag cls sty (removeBlacklistedF children))
      || subtreeHasClassF c (removeBlacklistedF children)) = false
    rw [bearsClass_eq c tag cls sty sty _ children, h.1,
      subtreeHasClassF_black_mono c children h.2]
    rfl
theorem subtreeHasClassF_black_mono (c : String) :
    ∀ f : HForest, subtreeHasClassF c f = false →
      subtreeHasClassF c (removeBlacklistedF f) = false
  | .nil, _ => rfl
  | .cons n f, h => by
    rw [subtreeHasClassF_cons, Bool.or_eq_false_iff] at h
    rw [removeBlacklistedF_cons]
    cases hb : isBlacklisted n with
    | true =>
      rw [if_pos (by simp [hb])]
      exact subtreeHasClassF_black_mono c f h.2
    | false =>
      rw [if_neg (by simp [hb]), subtreeHasClassF_cons,
        subtreeHasClassN_black_mono c n h.1,
        subtreeHasClassF_black_mono c f h.2]
      rfl
end

theorem bearsClass_cleanClassAttr_mono (c : String) (s : String) (a : String)
    (hclean : cleanClassAttr s = some a)
    (h : (splitSpaceAux s.toList).any (fun t => t == c.toList) = false) :
    (splitSpaceAux a.toList).any (fun t => t == c.toList) = false := by
  have hkept : ∀ t ∈ (splitSpaceAux s.toList).filter keepClassTok, ' ' ∉ t :=
    fun t ht => splitSpaceAux_no_space s.toList t (List.mem_of_mem_filter ht)
  rw [cleanClassAttr] at hclean
  by_cases hj : (joinPieces ((splitSpaceAux s.toList).filter keepClassTok)).isEmpty
  · rw [if_pos hj] at hclean
    cases hclean
  · rw [if_neg hj] at hclean
    have ha : a.toList = joinPieces ((splitSpaceAux s.toList).filter keepClassTok) := by
      have := congrArg String.toList (Option.some.inj hclean)
      exact this.symm ▸ rfl
    have hfne : (splitSpaceAux s.toList).filter keepClassTok ≠ [] := by
      intro hnil
      rw [hnil] at hj
      simp [joinPieces] at hj
    rw [ha, joinPieces_split_roundtrip _ hfne hkept]
    cases hany : ((splitSpaceAux s.toList).filter keepClassTok).any
        (fun t => t == c.toList) with
    | false => rfl
    | true =>
      rcases List.any_eq_true.mp hany with ⟨t, ht, htc⟩
      have : (splitSpaceAux s.toList).any (fun t => t == c.toList) = true :=
        List.any_eq_true.mpr ⟨t, List.mem_of_mem_filter ht, htc⟩
      rw [this] at h
      cases h

theorem bearsClass_cleanClassesNode (c : String) (tag : String)
    (cls sty : Option String) (f f' : HForest)
    (h : bearsClass c (.elem tag cls sty f) = false) :
    bearsClass c (.elem tag (cleanClsOpt cls) sty f') = false := by
  cases cls with
  | none => rfl
  | some s =>
    show bearsClass c (.elem tag (cleanClassAttr s) sty f') = false
    cases hclean : cleanClassAttr s with
    | none => rfl
    | some a =>
      show (splitSpaceAux a.toList).any (fun t => t == c.toList) = false
      exact bearsClass_cleanClassAttr_mono c s a hclean h

mutual
theorem subtreeHasClassN_clean_mono (c : String) :
    ∀ n : HNode, subtreeHasClassN c n = false →
      subtreeHasClassN c (cleanClassesNode n) = false
  | .text _, _ => rfl
  | .elem tag cls sty children, h => by
    rw [subtreeHasClassN_elem, Bool.or_eq_false_iff] at h
    show (bearsClass c (.elem tag (cleanClsOpt cls) sty (cleanClassesF children))
      || subtreeHasClassF c (cleanClassesF children)) = false
    rw [bearsClass_cleanClassesNode c tag cls sty children _ h.1,
      subtreeHasClassF_clean_mono c children h.2]
    rfl
theorem subtreeHasClassF_clean_mono (c : String) :
    ∀ f : HForest, subtreeHasClassF c f = false →
      subtreeHasClassF c (cleanClassesF f) = false
  | .nil, _ => rfl
  | .cons n f, h => by
    rw [subtreeHasClassF_cons, Bool.or_eq_false_iff] at h
    show (subtreeHasClassN c (cleanClassesNode n)
      || subtreeHasClassF c (cleanClassesF f)) = false
    rw [subtreeHasClassN_clean_mono c n h.1, subtreeHasClassF_clean_mono c f h.2]
    rfl
end

mutual
theorem subtreeHasClassN_styles_mono (c : String) :
    ∀ n : HNode, subtreeHasClassN c n = false →
      subtreeHasClassN c (cleanStylesNode n) = false
  | .text _, _ => rfl
  | .elem tag cls sty children, h => by
    rw [subtreeHasClassN_elem, Bool.or_eq_false_iff] at h
    show (bearsClass c (.elem tag cls (cleanStyOpt sty) (cleanStylesF children))
      || subtreeHasClassF c (cleanStylesF children)) = false
    rw [bearsClass_eq c tag cls _ sty _ children, h.1,
      subtreeHasClassF_styles_mono c children h.2]
    rfl
theorem subtreeHasClassF_styles_mono (c : String) :
    ∀ f : HForest, subtreeHasClassF c f = false →
      subtreeHasClassF c (cleanStylesF f) = false
  | .nil, _ => rfl
  | .cons n f, h => by
    rw [subtreeHasClassF_cons, Bool.or_eq_false_iff] at h
    show (subtreeHasClassN c (cleanStylesNode n)
      || subtreeHasClassF c (cleanStylesF f)) = false
    rw [subtreeHasClassN_styles_mono c n h.1, subtreeHasClassF_styles_mono c f h.2]
    rfl
end

theorem subtreeHasClassF_fold_mono (c : String) (H : List String) (f : HForest)
    (h : subtreeHasClassF c f = false) :
    subtreeHasClassF c (H.foldl (fun acc x => removeByClassF x acc) f) = false := by
  induction H generalizing f with
  | nil => exact h
  | cons c0 rest ih =>
    exact ih (removeByClassF c0 f) (subtreeHasClassF_remove_mono c c0 f h)

theorem subtreeHasClassF_fold_all (H : List String) (f : HForest) :
    ∀ c ∈ H, subtreeHasClassF c (H.foldl (fun acc x => removeByClassF x acc) f) = false := by
  induction H generalizing f with
  | nil => intro c hc; simp at hc
  | cons c0 rest ih =>
    intro c hc
    rcases List.mem_cons.mp hc with rfl | hc
    · exact subtreeHasClassF_fold_mono c rest (removeByClassF c f)
        (subtreeHasClassF_remove_self c f)
    · exact ih (removeByClassF c0 f) c hc

/-- Membership of a node in a forest (direct children level). -/
def memF (n : HNode) : HForest → Prop
  | .nil => False
  | .cons m f => n = m ∨ memF n f

theorem subtreeHasBlackN_elem (tag : String) (cls sty : Option String) (f : HForest) :
    subtreeHasBlackN (.elem tag cls sty f) =
      (isBlacklisted (.elem tag cls sty f) || subtreeHasBlackF f) := rfl

theorem subtreeHasBlackF_cons (n : HNode) (f : HForest) :
    subtreeHasBlackF (.cons n f) = (subtreeHasBlackN n || subtreeHasBlackF f) := rfl

theorem black_of_subtree_false (n : HNode) (h : subtreeHasBlackN n = false) :
    isBlacklisted n = false := by
  cases n with
  | text s => rfl
  | elem tag cls sty f =>
    rw [subtreeHasBlackN_elem, Bool.or_eq_false_iff] at h
    exact h.1

mutual
theorem removeByClass_fix (c : String) :
    ∀ n : HNode, subtreeHasClassN c n = false → removeByClass c n = n
  | .text _, _ => rfl
  | .elem tag cls sty children, h => by
    rw [subtreeHasClassN_elem, Bool.or_eq_false_iff] at h
    show HNode.elem tag cls sty (removeByClassF c children) = _
    rw [removeByClassF_fix c children h.2]
theorem removeByClassF_fix (c : String) :
    ∀ f : HForest, subtreeHasClassF c f = false → removeByClassF c f = f
  | .nil, _ => rfl
  | .cons n f, h => by
    rw [subtreeHasClassF_cons, Bool.or_eq_false_iff] at h
    rw [removeByClassF_cons, if_neg (by simp [bears_of_subtree_false c n h.1]),
      removeByClass_fix c n h.1, removeByClassF_fix c f h.2]
end

mutual
theorem removeBlacklisted_fix :
    ∀ n : HNode, subtreeHasBlackN n = false → removeBlacklisted n = n
  | .text _, _ => rfl
  | .elem tag cls sty children, h => by
    rw [subtreeHasBlackN_elem, Bool.or_eq_false_iff] at h
    show HNode.elem tag cls sty (removeBlacklistedF children) = _
    rw [removeBlacklistedF_fix children h.2]
theorem removeBlacklistedF_fix :
    ∀ f : HForest, subtreeHasBlackF f = false → removeBlacklistedF f = f
  | .nil, _ => rfl
  | .cons n f, h => by
    rw [subtreeHasBlackF_cons, Bool.or_eq_false_iff] at h
    rw [removeBlacklistedF_cons, if_neg (by simp [black_of_subtree_false n h.1]),
      removeBlacklisted_fix n h.1, removeBlacklistedF_fix f h.2]
end

theorem memF_removeByClassF (c : String) (n : HNode) :
    ∀ f : HForest, memF n f → subtreeHasClassN c n = false →
      memF n (removeByClassF c f)
  | .nil, hm, _ => hm.elim
  | .cons m f, hm, hn => by
    rw [removeByClassF_cons]
    rcases hm with rfl | hm
    · rw [if_neg (by simp [bears_of_subtree_false c n hn])]
      exact Or.inl (removeByClass_fix c n hn).symm
    · cases hb : bearsClass c m with
      | true =>
        rw [if_pos (by simp [hb])]
        exact memF_removeByClassF c n f hm hn
      | false =>
        rw [if_neg (by simp [hb])]
        exact Or.inr (memF_removeByClassF c n f hm hn)

theorem memF_fold (H : List String) (n : HNode) (f : HForest) (hm : memF n f)
    (hc : ∀ c ∈ H, subtreeHasClassN c n = false) :
    memF n (H.foldl (fun acc x => removeByClassF x acc) f) := by
  induction H generalizing f with
  | nil => exact hm
  | cons c0 rest ih =>
    exact ih (removeByClassF c0 f)
      (memF_removeByClassF c0 n f hm (hc c0 (List.mem_cons_self c0 rest)))
      (fun c hcr => hc c (List.mem_cons_of_mem c0 hcr))

theorem memF_removeBlacklistedF (n : HNode) :
    ∀ f : HForest, memF n f → subtreeHasBlackN n = false →
      memF n (removeBlacklistedF f)
  | .nil, hm, _ => hm.elim
  | .cons m f, hm, hn => by
    rw [removeBlacklistedF_cons]
    rcases hm with rfl | hm
    · rw [if_neg (by simp [black_of_subtree_false n hn])]
      exact Or.inl (removeBlacklisted_fix n hn).symm
    · cases hb : isBlacklisted m with
      | true =>
        rw [if_pos (by simp [hb])]
        exact memF_removeBlacklistedF n f hm hn
      | false =>
        rw [if_neg (by simp [hb])]
        exact Or.inr (memF_removeBlacklistedF n f hm hn)

theorem memF_cleanClassesF (n : HNode) :
    ∀ f : HForest, memF n f → memF (cleanClassesNode n) (cleanClassesF f)
  | .nil, hm => hm.elim
  | .cons m f, hm => by
    show memF (cleanClassesNode n) (.cons (cleanClassesNode m) (cleanClassesF f))
    rcases hm with rfl | hm
    · exact Or.inl rfl
    · exact Or.inr (memF_cleanClassesF n f hm)

theorem memF_cleanStylesF (n : HNode) :
    ∀ f : HForest, memF n f → memF (cleanStylesNode n) (cleanStylesF f)
  | .nil, hm => hm.elim
  | .cons m f, hm => by
    show memF (cleanStylesNode n) (.cons (cleanStylesNode m) (cleanStylesF f))
    rcases hm with rfl | hm
    · exact Or.inl rfl
    · exact Or.inr (memF_cleanStylesF n f hm)

mutual
theorem textContentN_cleanClasses :
    ∀ n : HNode, textContentN (cleanClassesNode n) = textContentN n
  | .text _ => rfl
  | .elem tag cls sty children => by
    show textContentF (cleanClassesF children) = textContentF children
    exact textContentF_cleanClasses children
theorem textContentF_cleanClasses :
    ∀ f : HForest, textContentF (cleanClassesF f) = textContentF f
  | .nil => rfl
  | .cons n f => by
    show textContentN (cleanClassesNode n) ++ textContentF (cleanClassesF f)
      = textContentN n ++ textContentF f
    rw [textContentN_cleanClasses n, textContentF_cleanClasses f]
end

mutual
theorem textContentN_cleanStyles :
    ∀ n : HNode, textContentN (cleanStylesNode n) = textContentN n
  | .text _ => rfl
  | .elem tag cls sty children => by
    show textContentF (cleanStylesF children) = textContentF children
    exact textContentF_cleanStyles children
theorem textContentF_cleanStyles :
    ∀ f : HForest, textContentF (cleanStylesF f) = textContentF f
  | .nil => rfl
  | .cons n f => by
    show textContentN (cleanStylesNode n) ++ textContentF (cleanStylesF f)
      = textContentN n ++ textContentF f
    rw [textContentN_cleanStyles n, textContentF_cleanStyles f]
end

/-- C5 counterexample: the claim as stated is false for a `<style>` rule
that makes the class non-visible via `visibility:hidden` — the extractor
only recognizes `display:none`, so the decoy span (and its text) survives
sanitization. -/
theorem sanitize_visibility_hidden_counterexample :
    extractHiddenClasses "<style>.xq7z\x7bvisibility:hidden\x7d</style>" = [] ∧
    subtreeHasClassF "xq7z"
      (sanitizeForest "<style>.xq7z\x7bvisibility:hidden\x7d</style>"
        (.cons (.elem "span" (some "xq7z") none (.cons (.text "PIRACY NOTICE") .nil))
          .nil)) = true ∧
    textContentF
      (sanitizeForest "<style>.xq7z\x7bvisibility:hidden\x7d</style>"
        (.cons (.elem "span" (some "xq7z") none (.cons (.text "PIRACY NOTICE") .nil))
          .nil)) = "PIRACY NOTICE".toList := by
  exact ⟨by decide, by decide, by decide⟩

/-- C5 (amended): for every chapter page and body forest: every class `c`
collected from a `<style>` rule setting `display: none` is completely
stripped — no element of the sanitized body bears `c`; and every direct
child of the body that bears no hidden class and no non-content blacklist
marker anywhere in its subtree survives (modulo attribute cleaning) with its
text content unchanged. -/
theorem sanitize_hidden_class_removal (content : String) (f : HForest) :
    (∀ c ∈ extractHiddenClasses content,
      subtreeHasClassF c (sanitizeForest content f) = false) ∧
    (∀ n : HNode, memF n f →
      (∀ c ∈ extractHiddenClasses content, subtreeHasClassN c n = false) →
      subtreeHasBlackN n = false →
      memF (cleanStylesNode (cleanClassesNode n)) (sanitizeForest content f) ∧
      textContentN (cleanStylesNode (cleanClassesNode n)) = textContentN n) := by
  constructor
  · intro c hc
    rw [sanitizeForest]
    exact subtreeHasClassF_styles_mono c _ (subtreeHasClassF_clean_mono c _
      (subtreeHasClassF_black_mono c _ (subtreeHasClassF_fold_all _ f c hc)))
  · intro n hm hclean hblack
    constructor
    · rw [sanitizeForest]
      exact memF_cleanStylesF _ _ (memF_cleanClassesF _ _
        (memF_removeBlacklistedF n _ (memF_fold _ n f hm hclean) hblack))
    · rw [textContentN_cleanStyles, textContentN_cleanClasses]

/-- Witness for C5 (amended) at the spec's scenario: a `<style>` rule hides
class `xq7z`; the body holds the decoy span and a sibling text node. The
decoy class is fully stripped and the sibling's text survives. -/
theorem sanitize_hidden_class_removal_witness :
    subtreeHasClassF "xq7z"
      (sanitizeForest "<style>.xq7z\x7bdisplay:none\x7d</style>"
        (.cons (.elem "span" (some "xq7z") none (.cons (.text "PIRACY NOTICE") .nil))
          (.cons (.text "Real paragraph text") .nil))) = false ∧
    memF (cleanStylesNode (cleanClassesNode (.text "Real paragraph text")))
      (sanitizeForest "<style>.xq7z\x7bdisplay:none\x7d</style>"
        (.cons (.elem "span" (some "xq7z") none (.cons (.text "PIRACY NOTICE") .nil))
          (.cons (.text "Real paragraph text") .nil))) ∧
    textContentN (cleanStylesNode (cleanClassesNode (.text "Real paragraph text")))
      = "Real paragraph text".toList := by
  have h := sanitize_hidden_class_removal "<style>.xq7z\x7bdisplay:none\x7d</style>"
    (.cons (.elem "span" (some "xq7z") none (.cons (.text "PIRACY NOTICE") .nil))
      (.cons (.text "Real paragraph text") .nil))
  have h2 := h.2 (.text "Real paragraph text") (Or.inr (Or.inl rfl))
    (fun c _ => rfl) rfl
  exact ⟨h.1 "xq7z" (by decide), h2.1, h2.2⟩

/-! ### Domain records used by the follows/toplist/fiction operations -/

/-- Chapter metadata (types.ts), reduced to the fields the cache and
warming logic inspect. -/
structure Chapter where
  id : Nat
  title : String
deriving Repr, DecidableEq

/-- Fiction detail (types.ts), reduced to the fields the warming logic
inspects; `chapters` is optional in the source (`chapters?: Chapter[]`). -/
structure Fiction where
  id : Nat
  title : String
  chapters : Option (List Chapter)
  continueChapterId : Option Nat
deriving Repr, DecidableEq

/-- A followed fiction (types.ts), reduced to the fields the warming logic
inspects. -/
structure FollowedFiction where
  id : Nat
  title : String
  hasUnread : Bool
  lastReadChapterId : Option Nat
  nextChapterId : Option Nat
deriving Repr, DecidableEq

def encodeChapterMeta (c : Chapter) : String :=
  "\x7b\"id\":" ++ toString c.id ++ ",\"title\":\"" ++ c.title ++ "\"\x7d"

def encodeFiction (f : Fiction) : String :=
  "\x7b\"id\":" ++ toString f.id ++ ",\"title\":\"" ++ f.title ++ "\",\"chapters\":" ++
  (match f.chapters with
   | some cs => "[" ++ joinSep "," (cs.map encodeChapterMeta) ++ "]"
   | none => "null") ++ "\x7d"

def encodeFollowedFiction (f : FollowedFiction) : String :=
  "\x7b\"id\":" ++ toString f.id ++ ",\"title\":\"" ++ f.title ++ "\"\x7d"

def encodeFollows (l : List FollowedFiction) : String :=
  "[" ++ joinSep "," (l.map encodeFollowedFiction) ++ "]"

def encodeFictionList (l : List Fiction) : String :=
  "[" ++ joinSep "," (l.map encodeFiction) ++ "]"

/-! ### Claim C7: non-empty write-through -/

/-- The cache write `getFollows` performs after extraction:
`if (fictions.length > 0) setCache("follows", JSON.stringify(fictions), ttl)`. -/
def getFollowsWrite (db : List CacheRow) (now ttl : Nat)
    (fictions : List FollowedFiction) : List CacheRow :=
  if fictions.length > 0 then setCache db now "follows" (encodeFollows fictions) ttl
  else db

/-- The cache write `getToplist` performs after extraction:
`if (fictions.length > 0) setCache("toplist:"+slug, ..., ttl)`. -/
def getToplistWrite (db : List CacheRow) (now ttl : Nat) (slug : String)
    (fictions : List Fiction) : List CacheRow :=
  if fictions.length > 0 then
    setCache db now ("toplist:" ++ slug) (encodeFictionList fictions) ttl
  else db

/-- The cache write `getFiction` performs after extraction: unconditional
(`setCache(cacheKey, JSON.stringify(fiction), ttl)` with no emptiness
guard — a fully unparseable page still yields a `Fiction {id}` record). -/
def getFictionWrite (db : List CacheRow) (now ttl : Nat) (id : Nat)
    (fiction : Fiction) : List CacheRow :=
  setCache db now (fictionCacheKey id) (encodeFiction fiction) ttl

theorem any_filter_true (l : List CacheRow) (p q : CacheRow → Bool)
    (h : ∀ r, q r = true → p r = true) (ha : l.any q = true) :
    (l.filter p).any q = true := by
  induction l with
  | nil => simp at ha
  | cons r rest ih =>
    simp only [List.any_cons, Bool.or_eq_true] at ha
    rcases ha with hr | hr
    · rw [List.filter_cons, if_pos (by simp [h r hr])]
      simp [hr]
    · cases hp : p r with
      | true =>
        rw [List.filter_cons, if_pos (by simp [hp])]
        simp [ih hr]
      | false =>
        rw [List.filter_cons, if_neg (by simp [hp])]
        exact ih hr

theorem any_url_delete_ne (db : List CacheRow) (key u : String) (h : u ≠ key)
    (ha : db.any (fun r => r.url == u) = true) :
    ((deleteCache db key).1.any (fun r => r.url == u)) = true := by
  rw [deleteCache]
  refine any_filter_true db _ _ (fun r hr => ?_) ha
  have hru : r.url = u := by simpa using hr
  simp [hru, h]

theorem any_url_of_getCache_some (db : List CacheRow) (now : Nat) (k v : String)
    (h : getCache db now k = some v) :
    db.any (fun r => r.url == k) = true := by
  rw [getCache] at h
  cases hf : db.find? (fun r => r.url == k && decide (now < r.expiresAt)) with
  | none => rw [hf] at h; cases h
  | some r =>
    have hmem := List.mem_of_find?_eq_some hf
    have hpred := List.find?_some hf
    simp only [Bool.and_eq_true] at hpred
    exact List.any_eq_true.mpr ⟨r, hmem, hpred.1⟩

/-- C7 counterexample: the claim as stated is false for chapter content: a
chapter page with an entirely empty extraction result (no parsable fiction
link, empty sanitized body) is still written through to the cache. -/
theorem empty_chapter_written_counterexample :
    (mkChapterResult 5 ⟨0, "", "", "", none, none, none⟩).content = "" ∧
    getCache (getChapterEffect [] 0 5 (some 60) ⟨0, "", "", "", none, none, none⟩).1
        0 (chapterCacheKey 5)
      = some (encodeChapterContent (mkChapterResult 5 ⟨0, "", "", "", none, none, none⟩)) := by
  exact ⟨rfl, by decide⟩

theorem getChapterEffect_some_eq (db : List CacheRow) (now cid t : Nat)
    (fetched : FetchedChapter) :
    getChapterEffect db now cid (some t) fetched =
      (match getCache db now (chapterCacheKey cid) with
       | some cached => (db, ChapterRead.cachedHit cached, none)
       | none =>
         (setCache db now (chapterCacheKey cid)
            (encodeChapterContent (mkChapterResult cid fetched)) CACHE_TTL_CHAPTER,
          ChapterRead.fetched (mkChapterResult cid fetched), none)) := by
  rw [getChapterEffect]
  cases getCache db now (chapterCacheKey cid) <;> rfl

/-- C7 (amended): the follows list and toplists are written through only
when the extraction result is non-empty (an empty list leaves the cache
untouched); fiction detail and chapter content are always written through —
after any `getFiction`/`getChapter` fetch the corresponding key is present
in the cache even when the extraction result is empty. -/
theorem cache_write_policy (db : List CacheRow) (now ttl : Nat) (slug : String)
    (follows : List FollowedFiction) (tops : List Fiction) (fid : Nat) (fic : Fiction)
    (cid : Nat) (chttl : Option Nat) (fetched : FetchedChapter) :
    (follows.length = 0 → getFollowsWrite db now ttl follows = db) ∧
    (follows.length ≠ 0 →
      (getFollowsWrite db now ttl follows).any (fun r => r.url == "follows") = true) ∧
    (tops.length = 0 → getToplistWrite db now ttl slug tops = db) ∧
    (tops.length ≠ 0 →
      (getToplistWrite db now ttl slug tops).any
        (fun r => r.url == ("toplist:" ++ slug)) = true) ∧
    ((getFictionWrite db now ttl fid fic).any
      (fun r => r.url == fictionCacheKey fid)) = true ∧
    ((getChapterEffect db now cid chttl fetched).1.any
      (fun r => r.url == chapterCacheKey cid)) = true := by
  refine ⟨?_, ?_, ?_, ?_, ?_, ?_⟩
  · intro h
    rw [getFollowsWrite, if_neg (by omega)]
  · intro h
    rw [getFollowsWrite, if_pos (by omega), setCache]
    exact mem_url_upsert db _
  · intro h
    rw [getToplistWrite, if_neg (by omega)]
  · intro h
    rw [getToplistWrite, if_pos (by omega), setCache]
    exact mem_url_upsert db _
  · rw [getFictionWrite, setCache]
    exact mem_url_upsert db _
  · cases chttl with
    | none =>
      have hlive : (getChapterEffect db now cid none fetched).1 =
          (deleteCache
            (if fetched.fictionId != 0 then
              (deleteCache (setCache db now (chapterCacheKey cid)
                (encodeChapterContent (mkChapterResult cid fetched)) CACHE_TTL_CHAPTER)
                (fictionCacheKey fetched.fictionId)).1
             else setCache db now (chapterCacheKey cid)
                (encodeChapterContent (mkChapterResult cid fetched)) CACHE_TTL_CHAPTER)
            "follows").1 := rfl
      rw [hlive]
      refine any_url_delete_ne _ _ _ (chapterCacheKey_ne_follows cid) ?_
      by_cases hfid : fetched.fictionId = 0
      · rw [if_neg (by simp [hfid]), setCache]
        exact mem_url_upsert db _
      · rw [if_pos (by simp [hfid])]
        refine any_url_delete_ne _ _ _
          (chapterCacheKey_ne_fictionCacheKey cid fetched.fictionId) ?_
        rw [setCache]
        exact mem_url_upsert db _
    | some t =>
      rw [getChapterEffect_some_eq]
      cases hhit : getCache db now (chapterCacheKey cid) with
      | some v =>
        simp only
        exact any_url_of_getCache_some db now _ v hhit
      | none =>
        simp only [setCache]
        exact mem_url_upsert db _

/-- Witness for C7 (amended) at concrete inputs: an empty follows extraction
writes nothing; a non-empty toplist extraction writes `toplist:rising-stars`;
a fiction fetch and a chapter fetch always write their keys. -/
theorem cache_write_policy_witness :
    getFollowsWrite [] 0 1200 [] = [] ∧
    ((getToplistWrite [] 0 21600 "rising-stars" [⟨1, "F", none, none⟩]).any
      (fun r => r.url == "toplist:rising-stars")) = true ∧
    ((getFictionWrite [] 0 3600 7 ⟨7, "", none, none⟩).any
      (fun r => r.url == fictionCacheKey 7)) = true ∧
    ((getChapterEffect [] 0 5 none ⟨3, "F", "T", "", none, none, none⟩).1.any
      (fun r => r.url == chapterCacheKey 5)) = true := by
  have h := cache_write_policy [] 0 1200 "rising-stars" [] [⟨1, "F", none, none⟩]
    7 ⟨7, "", none, none⟩ 5 none ⟨3, "F", "T", "", none, none, none⟩
  refine ⟨h.1 rfl, ?_, ?_, h.2.2.2.2.2⟩
  · have h2 := cache_write_policy [] 0 21600 "rising-stars" [] [⟨1, "F", none, none⟩]
      7 ⟨7, "", none, none⟩ 5 none ⟨3, "F", "T", "", none, none, none⟩
    exact h2.2.2.2.1 (by decide)
  · have h3 := cache_write_policy [] 0 3600 "rising-stars" [] [⟨1, "F", none, none⟩]
      7 ⟨7, "", none, none⟩ 5 none ⟨3, "F", "T", "", none, none, none⟩
    exact h3.2.2.2.2.1

/-! ### Claim C6: follows warming (`warmFollowsCache`, jobs module)

Per followed fiction: if `fiction:{id}` is not validly cached, the job calls
`getFiction(fiction.id)` — with the scraper's default arguments
`ttl = CACHE_TTL.FICTION`, `useAnon = false`, i.e. the *authenticated*
context — computes the next chapter to read, and pre-caches it with
`TTL.NEXT_CHAPTER` unless `chapter:{id}` is already cached. A `getFiction`
result of `null` or without chapters (`!fictionDetails?.chapters?.length`)
skips the rest of the item. -/

/-- JS truthiness of an optional number: `undefined` and `0` are falsy. -/
def truthyNatOpt : Option Nat → Bool
  | some n => n != 0
  | none => false

/-- `TTL.NEXT_CHAPTER` (jobs module): 30 days. -/
def TTL_NEXT_CHAPTER : Nat := 30 * 24 * 60 * 60

/-- The warming actions taken for one followed fiction: whether the fiction
detail was fetched, the `useAnon` flag of that fetch, the computed next
chapter, and the scheduled chapter pre-cache (chapter id, TTL). -/
structure WarmOutcome where
  fetchedFiction : Bool
  fictionUseAnon : Bool
  nextChapter : Option Nat
  precached : Option (Nat × Nat)
deriving Repr, DecidableEq

/-- The "next chapter to read" computation of `warmFollowsCache`:
`continueChapterId` when truthy; else the successor of the last-read chapter
(`findIndex` on the chapter list, requiring it to be found and not last);
else the first chapter. Empty or absent chapter lists yield nothing. -/
def warmNextChapter (fiction : FollowedFiction) (details : Fiction) : Option Nat :=
  match details.chapters with
  | none => none
  | some chapters =>
    if chapters.length = 0 then none
    else if truthyNatOpt details.continueChapterId then details.continueChapterId
    else if truthyNatOpt fiction.lastReadChapterId then
      let lastReadIdx := chapters.findIdx
        (fun c => c.id == fiction.lastReadChapterId.getD 0)
      if lastReadIdx + 1 < chapters.length then
        (chapters.get? (lastReadIdx + 1)).map Chapter.id
      else none
    else chapters.head?.map Chapter.id

/-- One iteration of the `warmFollowsCache` per-fiction loop. The fiction
detail fetch is `getFiction(fiction.id)`: `useAnon` takes the scraper's
default `false` (authenticated context). The chapter pre-cache is guarded by
`isCached(chapter:{id})` and uses `TTL.NEXT_CHAPTER`. -/
def warmFictionStep (db : List CacheRow) (now : Nat) (fiction : FollowedFiction)
    (details : Fiction) : WarmOutcome :=
  if isCached db now (fictionCacheKey fiction.id) then
    ⟨false, false, none, none⟩
  else
    let nextChapterId := warmNextChapter fiction details
    let precached :=
      if truthyNatOpt nextChapterId then
        if isCached db now (chapterCacheKey (nextChapterId.getD 0)) then none
        else some (nextChapterId.getD 0, TTL_NEXT_CHAPTER)
      else none
    ⟨true, false, nextChapterId, precached⟩

/-- C6 counterexample: the claim as stated is false — warming fetches the
fiction detail with the scraper's default `useAnon = false`, i.e. the
authenticated context, not the anonymous one (the fetch does happen at this
input: the fiction is not cached). -/
theorem warm_follows_auth_counterexample :
    (warmFictionStep [] 0 ⟨1, "F", true, none, none⟩
      ⟨1, "F", some [⟨10, "c1"⟩], none⟩).fetchedFiction = true ∧
    (warmFictionStep [] 0 ⟨1, "F", true, none, none⟩
      ⟨1, "F", some [⟨10, "c1"⟩], none⟩).fictionUseAnon = false := by decide

/-- C6 (amended): when the followed fiction's detail entry is validly cached
the item is skipped entirely; otherwise the detail is fetched using the
authenticated context (the scraper's default), the next chapter is computed
with precedence truthy continue-pointer, then successor of the last-read
chapter in the list when it exists, then first chapter; and when the
computed next chapter id is non-zero it is pre-cached with the long chapter
TTL exactly when `chapter:{id}` is not already validly cached. -/
theorem warm_follows_step (db : List CacheRow) (now : Nat)
    (fiction : FollowedFiction) (details : Fiction) :
    (isCached db now (fictionCacheKey fiction.id) = true →
      warmFictionStep db now fiction details = ⟨false, false, none, none⟩) ∧
    (isCached db now (fictionCacheKey fiction.id) = false →
      (warmFictionStep db now fiction details).fetchedFiction = true ∧
      (warmFictionStep db now fiction details).fictionUseAnon = false ∧
      (warmFictionStep db now fiction details).nextChapter
        = warmNextChapter fiction details) ∧
    (∀ chapters, details.chapters = some chapters → chapters ≠ [] →
      ((truthyNatOpt details.continueChapterId = true →
        warmNextChapter fiction details = details.continueChapterId) ∧
       (truthyNatOpt details.continueChapterId = false →
        truthyNatOpt fiction.lastReadChapterId = true →
        warmNextChapter fiction details =
          (if (chapters.findIdx (fun c => c.id == fiction.lastReadChapterId.getD 0)) + 1
              < chapters.length then
            (chapters.get? ((chapters.findIdx
              (fun c => c.id == fiction.lastReadChapterId.getD 0)) + 1)).map Chapter.id
          else none)) ∧
       (truthyNatOpt details.continueChapterId = false →
        truthyNatOpt fiction.lastReadChapterId = false →
        warmNextChapter fiction details = chapters.head?.map Chapter.id))) ∧
    (∀ n, isCached db now (fictionCacheKey fiction.id) = false →
      warmNextChapter fiction details = some n → n ≠ 0 →
      (warmFictionStep db now fiction details).precached =
        (if isCached db now (chapterCacheKey n) then none
         else some (n, TTL_NEXT_CHAPTER))) := by
  refine ⟨?_, ?_, ?_, ?_⟩
  · intro h
    rw [warmFictionStep, if_pos (by simp [h])]
  · intro h
    rw [warmFictionStep, if_neg (by simp [h])]
    exact ⟨rfl, rfl, rfl⟩
  · intro chapters hch hne
    have hlen : ¬ chapters.length = 0 := by
      cases chapters with
      | nil => exact absurd rfl hne
      | cons a l => simp
    have hwn : warmNextChapter fiction details =
        (if chapters.length = 0 then none
         else if truthyNatOpt details.continueChapterId then details.continueChapterId
         else if truthyNatOpt fiction.lastReadChapterId then
           (if (chapters.findIdx (fun c => c.id == fiction.lastReadChapterId.getD 0)) + 1
               < chapters.length then
             (chapters.get? ((chapters.findIdx
               (fun c => c.id == fiction.lastReadChapterId.getD 0)) + 1)).map Chapter.id
           else none)
         else chapters.head?.map Chapter.id) := by
      rw [warmNextChapter, hch]
    refine ⟨?_, ?_, ?_⟩
    · intro hcont
      rw [hwn, if_neg hlen, if_pos (by simp [hcont])]
    · intro hcont hlast
      rw [hwn, if_neg hlen, if_neg (by simp [hcont]), if_pos (by simp [hlast])]
    · intro hcont hlast
      rw [hwn, if_neg hlen, if_neg (by simp [hcont]), if_neg (by simp [hlast])]
  · intro n h hnext hn0
    rw [warmFictionStep, if_neg (by simp [h])]
    show (if truthyNatOpt (warmNextChapter fiction details) then
        (if isCached db now (chapterCacheKey ((warmNextChapter fiction details).getD 0))
         then none
         else some ((warmNextChapter fiction details).getD 0, TTL_NEXT_CHAPTER))
      else none) = _
    rw [hnext]
    rw [if_pos (by simp [truthyNatOpt, hn0])]
    simp only [Option.getD_some]

/-- Witness for C6 (amended) at concrete inputs: an uncached fiction with
chapters `[10, 11]` and last-read chapter 10 fetches authenticated and
pre-caches the successor chapter 11 with the 30-day TTL. -/
theorem warm_follows_step_witness :
    (warmFictionStep [] 0 ⟨1, "F", true, some 10, none⟩
      ⟨1, "F", some [⟨10, "c1"⟩, ⟨11, "c2"⟩], none⟩).fictionUseAnon = false ∧
    warmNextChapter ⟨1, "F", true, some 10, none⟩
      ⟨1, "F", some [⟨10, "c1"⟩, ⟨11, "c2"⟩], none⟩ = some 11 ∧
    (warmFictionStep [] 0 ⟨1, "F", true, some 10, none⟩
      ⟨1, "F", some [⟨10, "c1"⟩, ⟨11, "c2"⟩], none⟩).precached
      = some (11, TTL_NEXT_CHAPTER) := by
  have h := warm_follows_step [] 0 ⟨1, "F", true, some 10, none⟩
    ⟨1, "F", some [⟨10, "c1"⟩, ⟨11, "c2"⟩], none⟩
  have hnext : warmNextChapter ⟨1, "F", true, some 10, none⟩
      ⟨1, "F", some [⟨10, "c1"⟩, ⟨11, "c2"⟩], none⟩ = some 11 := by
    rw [(h.2.2.1 [⟨10, "c1"⟩, ⟨11, "c2"⟩] rfl (by simp)).2.1 rfl rfl]
    decide
  refine ⟨(h.2.1 (by decide)).2.1, hnext, ?_⟩
  rw [h.2.2.2 11 (by decide) hnext (by decide)]
  decide

/-! ### Claim C8: the running-flag and concurrent warm cycles

Jobs module: `jobsRunning` is checked only by `startJobs` (making scheduler
startup idempotent). Neither the interval callback nor `triggerCacheWarm`
checks any flag before invoking `warmFollowsCache`, so warm cycles
themselves are unguarded. The scheduler is modelled as a transition system
over the module state plus a count of warm cycles currently in flight. -/

structure JobsState where
  jobsRunning : Bool
  followsScheduled : Bool
  toplistsScheduled : Bool
  activeWarmCycles : Nat
deriving Repr, DecidableEq

inductive JobsEvent
  | startJobs
  | stopJobs
  | followsIntervalFire
  | warmTrigger
  | cycleEnd
deriving Repr, DecidableEq

/-- One scheduler step. `startJobs` is a no-op when `jobsRunning` is set,
otherwise it sets the flag and schedules both intervals; `stopJobs` clears
them; an interval fire (when scheduled) and a manual `triggerCacheWarm`
begin a warm cycle unconditionally; `cycleEnd` finishes one. -/
def jobsStep (s : JobsState) : JobsEvent → JobsState
  | .startJobs =>
    if s.jobsRunning then s
    else { s with jobsRunning := true, followsScheduled := true, toplistsScheduled := true }
  | .stopJobs =>
    { s with jobsRunning := false, followsScheduled := false, toplistsScheduled := false }
  | .followsIntervalFire =>
    if s.followsScheduled then { s with activeWarmCycles := s.activeWarmCycles + 1 }
    else s
  | .warmTrigger => { s with activeWarmCycles := s.activeWarmCycles + 1 }
  | .cycleEnd =>
    if s.activeWarmCycles > 0 then { s with activeWarmCycles := s.activeWarmCycles - 1 }
    else s

/-- The module's initial state: nothing running, nothing scheduled. -/
def jobsInit : JobsState := ⟨false, false, false, 0⟩

/-- Run a sequence of scheduler events from the initial state. -/
def jobsRun (es : List JobsEvent) : JobsState :=
  es.foldl jobsStep jobsInit

/-- C8 counterexample: two follows-cache-warm cycles can be in flight at
once — after `startJobs`, an interval fire followed by a manual
`triggerCacheWarm` (e.g. the user re-saving credentials) reaches a state
with two active cycles; no flag prevents it. -/
theorem concurrent_warm_cycles_counterexample :
    (jobsRun [.startJobs, .followsIntervalFire, .warmTrigger]).activeWarmCycles = 2 := by
  decide

/-- C8 (amended): the `jobsRunning` flag guards only scheduler startup:
`startJobs` is a no-op while the flag is set, and starting twice equals
starting once; it does not prevent overlapping warm cycles. -/
theorem jobs_running_flag_guard (s : JobsState) :
    (s.jobsRunning = true → jobsStep s .startJobs = s) ∧
    jobsStep (jobsStep s .startJobs) .startJobs = jobsStep s .startJobs := by
  constructor
  · intro h
    rw [jobsStep, if_pos (by simp [h])]
  · cases h : s.jobsRunning with
    | true =>
      have h1 : jobsStep s .startJobs = s := by
        rw [jobsStep, if_pos (by simp [h])]
      rw [h1, h1]
    | false =>
      have h1 : jobsStep s .startJobs =
          { s with jobsRunning := true, followsScheduled := true, toplistsScheduled := true } := by
        rw [jobsStep, if_neg (by simp [h])]
      rw [h1]
      rw [jobsStep, if_pos rfl]

/-- Witness for C8 (amended): a second `startJobs` in a running state is a
no-op. -/
theorem jobs_running_flag_guard_witness :
    jobsStep ⟨true, true, true, 1⟩ .startJobs = ⟨true, true, true, 1⟩ :=
  (jobs_running_flag_guard ⟨true, true, true, 1⟩).1 rfl

end Tome
